import Mathlib

/-! The post store reducer of mattermost-redux.

A shallow embedding of `src/reducers/entities/posts.js` (the reducer that folds
transition records into the normalized post store), followed by theorems about
it.

Modelling conventions.

* A JavaScript object used as a map (`posts`, `postsByChannel`) is a function
  from keys to `Option`; `none` is an absent key (`undefined`).
* `{...m, [k]: v}` and `m[k] = v` on a fresh copy are `Function.update m k (some v)`;
  `Reflect.deleteProperty(m, k)` on a fresh copy is `Function.update m k none`.
* Timestamps are natural numbers (milliseconds).
* Reading a property of `undefined` raises a `TypeError`; functions that can do
  so return `Except JsError`.
* Object identity (`===` on objects) is not visible in values, so each handler
  also reports whether the object it returns is the very object it was given,
  and `reducerReturn` reports whether the state it returns is the object it was
  given; `reducer` is the state `reducerReturn` returns.
-/

namespace PostsReducer

/-- What a run of the embedded code can end with instead of a value. -/
inductive JsError where
  /-- A property was read from `undefined`. -/
  | typeError
  /-- The bound given to a loop of the embedding was too small. -/
  | outOfFuel
deriving DecidableEq, Repr

/-- A post, with the fields the reducer and the action creators read or write.
`state` is `none` while the field is absent. -/
structure Post where
  id : String
  channel_id : String
  root_id : String
  user_id : String
  create_at : Nat
  update_at : Nat
  delete_at : Nat
  message : String
  file_ids : List String
  has_reactions : Bool
  state : Option String
deriving DecidableEq, Repr

/-- Modelled from the spec: the constant `Posts.POST_DELETED` of the module
`constants`, which is not among the sources; it is the value of the lifecycle
flag of a deleted placeholder. -/
def POST_DELETED : String := "DELETED"

/-- The payload of a multi-post fetch: `posts` lists the values of the
`posts` object in the order `Object.values` enumerates them. -/
structure PostList where
  posts : List Post
  order : List String
deriving DecidableEq, Repr

/-- Transition records, one constructor per `action.type` the reducer
distinguishes; `other` stands for every type it does not recognise. -/
inductive Action where
  | receivedPost (data : Post)
  | receivedPosts (data : PostList) (channelId : String)
  | postDeleted (data : Post)
  | removePost (data : Post)
  | receivedPostSelected (data : String)
  | logoutSuccess
  | other
deriving DecidableEq, Repr

abbrev PostMap := String → Option Post

abbrev ChannelMap := String → Option (List String)

/-- The post store. -/
structure State where
  posts : PostMap
  postsByChannel : ChannelMap
  selectedPostId : String
  currentFocusedPostId : String

/-- The canonical empty store. -/
def State.empty : State :=
  { posts := fun _ => none, postsByChannel := fun _ => none,
    selectedPostId := "", currentFocusedPostId := "" }

/-- What `handlePosts` returns: the two maps, and for each whether it is the
object that was passed in (`true`) or a freshly built one (`false`). -/
structure PostsSlice where
  posts : PostMap
  postsByChannel : ChannelMap
  samePosts : Bool
  samePostsByChannel : Bool

/-- `handleReceivedPost`. -/
def handleReceivedPost (posts : PostMap) (postsByChannel : ChannelMap) (post : Post) :
    PostsSlice :=
  let channelId := post.channel_id
  let nextPosts := Function.update posts post.id (some post)
  match postsByChannel channelId with
  | none =>
    { posts := nextPosts
      postsByChannel := Function.update postsByChannel channelId (some [post.id])
      samePosts := false, samePostsByChannel := false }
  | some postsInChannel =>
    if post.id ∈ postsInChannel then
      { posts := nextPosts, postsByChannel := postsByChannel
        samePosts := false, samePostsByChannel := true }
    else
      { posts := nextPosts
        postsByChannel := Function.update postsByChannel channelId (some (post.id :: postsInChannel))
        samePosts := false, samePostsByChannel := false }

/-- The stored post is replaced when there is none or when its `update_at` is
greater than the incoming one (line 47). -/
def mergePost (nextPosts : PostMap) (newPost : Post) : PostMap :=
  match nextPosts newPost.id with
  | none => Function.update nextPosts newPost.id (some newPost)
  | some old =>
    if old.update_at > newPost.update_at then
      Function.update nextPosts newPost.id (some newPost)
    else nextPosts

/-- One iteration of the loop of `handleReceivedPosts` over the incoming posts. -/
def receiveStep (acc : PostMap × List String) (newPost : Post) : PostMap × List String :=
  if newPost.delete_at > 0 then acc
  else
    (mergePost acc.1 newPost,
     if newPost.id ∈ acc.2 then acc.2 else acc.2 ++ [newPost.id])

/-- The comparator given to `sort` (lines 58-66): negative when `a` goes first. -/
def compareCreateAt (nextPosts : PostMap) (a b : String) : Except JsError Int :=
  match nextPosts a, nextPosts b with
  | some pa, some pb =>
    if pa.create_at > pb.create_at then .ok (-1)
    else if pa.create_at < pb.create_at then .ok 1
    else .ok 0
  | _, _ => .error .typeError

/-- Insertion of `a` in front of the first element it does not go after. -/
def insertBy (cmp : String → String → Except JsError Int) (a : String) :
    List String → Except JsError (List String)
  | [] => .ok [a]
  | b :: l =>
    match cmp a b with
    | .error e => .error e
    | .ok c =>
      if c ≤ 0 then .ok (a :: b :: l)
      else
        match insertBy cmp a l with
        | .error e => .error e
        | .ok r => .ok (b :: r)

/-- `Array.prototype.sort` with a comparator: a stable sort, here by insertion,
which raises what the comparator raises. -/
def sortBy (cmp : String → String → Except JsError Int) :
    List String → Except JsError (List String)
  | [] => .ok []
  | a :: l =>
    match sortBy cmp l with
    | .error e => .error e
    | .ok s => insertBy cmp a s

/-- `handleReceivedPosts`. -/
def handleReceivedPosts (posts : PostMap) (postsByChannel : ChannelMap)
    (data : PostList) (channelId : String) : Except JsError PostsSlice :=
  let newPosts := data.posts
  let postsInChannel := (postsByChannel channelId).getD []
  let acc := newPosts.foldl receiveStep (posts, postsInChannel)
  match sortBy (compareCreateAt acc.1) acc.2 with
  | .error e => .error e
  | .ok sorted =>
    .ok { posts := acc.1
          postsByChannel := Function.update postsByChannel channelId (some sorted)
          samePosts := false, samePostsByChannel := false }

/-- `handlePostDeleted`. -/
def handlePostDeleted (posts : PostMap) (postsByChannel : ChannelMap) (post : Post) :
    PostsSlice :=
  match posts post.id with
  | none =>
    { posts := posts, postsByChannel := postsByChannel
      samePosts := true, samePostsByChannel := true }
  | some stored =>
    { posts := Function.update posts post.id
        (some { stored with state := some POST_DELETED, file_ids := [], has_reactions := false })
      postsByChannel := postsByChannel
      samePosts := false, samePostsByChannel := true }

/-- The loop `for (const id of postsInChannel)` of `handleRemovePost`
(lines 117-126). The array iterator reads index `i` of the array as it is at
that moment and stops when `i` is past its end; the body may splice the array.
`fuel` bounds the number of iterations. -/
def removeComments (postId : String) :
    Nat → Nat → PostMap → List String → Except JsError (PostMap × List String)
  | fuel, i, nextPosts, postsInChannel =>
    match postsInChannel[i]? with
    | none => .ok (nextPosts, postsInChannel)
    | some id =>
      match fuel with
      | 0 => .error .outOfFuel
      | fuel + 1 =>
        match nextPosts id with
        | none => .error .typeError
        | some comment =>
          if comment.root_id = postId then
            removeComments postId fuel (i + 1) (Function.update nextPosts id none)
              (postsInChannel.eraseIdx (postsInChannel.indexOf id))
          else
            removeComments postId fuel (i + 1) nextPosts postsInChannel

/-- `handleRemovePost`. -/
def handleRemovePost (posts : PostMap) (postsByChannel : ChannelMap) (post : Post) :
    Except JsError PostsSlice :=
  let channelId := post.channel_id
  match posts post.id with
  | none =>
    .ok { posts := posts, postsByChannel := postsByChannel
          samePosts := true, samePostsByChannel := true }
  | some _ =>
    let postsInChannel := (postsByChannel channelId).getD []
    let nextPosts := Function.update posts post.id none
    let postsInChannel := postsInChannel.eraseIdx (postsInChannel.indexOf post.id)
    match removeComments post.id postsInChannel.length 0 nextPosts postsInChannel with
    | .error e => .error e
    | .ok (nextPosts, postsInChannel) =>
      .ok { posts := nextPosts
            postsByChannel := Function.update postsByChannel channelId (some postsInChannel)
            samePosts := false, samePostsByChannel := false }

/-- `handlePosts`. -/
def handlePosts (posts : PostMap) (postsByChannel : ChannelMap) :
    Action → Except JsError PostsSlice
  | .receivedPost data => .ok (handleReceivedPost posts postsByChannel data)
  | .receivedPosts data channelId => handleReceivedPosts posts postsByChannel data channelId
  | .postDeleted data => .ok (handlePostDeleted posts postsByChannel data)
  | .removePost data => handleRemovePost posts postsByChannel data
  | .logoutSuccess =>
    .ok { posts := fun _ => none, postsByChannel := fun _ => none
          samePosts := false, samePostsByChannel := false }
  | _ =>
    .ok { posts := posts, postsByChannel := postsByChannel
          samePosts := true, samePostsByChannel := true }

/-- `selectedPostId`. -/
def selectedPostId (state : String) : Action → String
  | .receivedPostSelected data => data
  | .logoutSuccess => ""
  | _ => state

/-- `currentFocusedPostId`. -/
def currentFocusedPostId (state : String) : Action → String
  | .logoutSuccess => ""
  | _ => state

/-- The test of lines 196-198: none of the four children has changed. -/
def unchanged (state : State) (slice : PostsSlice) (selected focused : String) : Bool :=
  slice.samePosts && slice.samePostsByChannel &&
    decide (state.selectedPostId = selected) &&
    decide (state.currentFocusedPostId = focused)

/-- What the default export returns: the state, and whether it is the very
object that was passed in as `state` (`return state`, line 200) or the freshly
built one (`return nextState`, line 203). -/
structure Returned where
  state : State
  isInput : Bool

/-- The default export, with the identity of the object it returns. -/
def reducerReturn (state : State) (action : Action) : Except JsError Returned :=
  match handlePosts state.posts state.postsByChannel action with
  | .error e => .error e
  | .ok slice =>
    let nextState : State :=
      { posts := slice.posts
        postsByChannel := slice.postsByChannel
        selectedPostId := selectedPostId state.selectedPostId action
        currentFocusedPostId := currentFocusedPostId state.currentFocusedPostId action }
    if unchanged state slice nextState.selectedPostId nextState.currentFocusedPostId then
      .ok { state := state, isInput := true }
    else .ok { state := nextState, isInput := false }

/-- The reducer (the default export) as a function on values: the state that
`reducerReturn` returns. -/
def reducer (state : State) (action : Action) : Except JsError State :=
  match reducerReturn state action with
  | .error e => .error e
  | .ok returned => .ok returned.state

/-- Folding a list of records through the reducer, stopping at the first
exception. -/
def run (state : State) : List Action → Except JsError State
  | [] => .ok state
  | a :: as =>
    match reducer state a with
    | .error e => .error e
    | .ok next => run next as

/-! ## Predicates of the specification and auxiliary definitions -/

/-- Every identifier in every channel sequence is a key of `posts`. -/
def NoDangling (s : State) : Prop :=
  ∀ c seq, s.postsByChannel c = some seq → ∀ id ∈ seq, s.posts id ≠ none

/-- The `create_at` of the post stored under `k` (0 when there is none). -/
def createAtOf (posts : PostMap) (k : String) : Nat :=
  match posts k with
  | some p => p.create_at
  | none => 0

/-- `a` may stand before `b`: the post under `a` is not older than the one under `b`. -/
def newerFirst (posts : PostMap) (a b : String) : Prop :=
  createAtOf posts b ≤ createAtOf posts a

instance (posts : PostMap) : DecidableRel (newerFirst posts) :=
  fun a b => inferInstanceAs (Decidable (createAtOf posts b ≤ createAtOf posts a))

instance (posts : PostMap) : IsTotal String (newerFirst posts) :=
  ⟨fun a b => Nat.le_total (createAtOf posts b) (createAtOf posts a)⟩

instance (posts : PostMap) : IsTrans String (newerFirst posts) :=
  ⟨fun _ _ _ hab hbc => Nat.le_trans hbc hab⟩

/-- The incoming post `n` needs no further work: a record at least as old in
`update_at` is stored under its identifier and the identifier is listed. -/
def Settled (acc : PostMap × List String) (n : Post) : Prop :=
  (∃ q, acc.1 n.id = some q ∧ q.update_at ≤ n.update_at) ∧ n.id ∈ acc.2

/-- Every channel sequence is free of duplicates and lists stored posts only. -/
def Tidy (s : State) : Prop :=
  ∀ c seq, s.postsByChannel c = some seq → seq.Nodup ∧ ∀ k ∈ seq, s.posts k ≠ none

/-- Every channel sequence lists only identifiers that `chan` assigns to it. -/
def Owned (chan : String → String) (s : State) : Prop :=
  ∀ c seq, s.postsByChannel c = some seq → ∀ k ∈ seq, chan k = c

/-- The record presents each identifier in the channel `chan` assigns to it. -/
def Consistent (chan : String → String) : Action → Prop
  | .receivedPost data => chan data.id = data.channel_id
  | .receivedPosts data channelId =>
    ∀ p ∈ data.posts, p.delete_at = 0 → chan p.id = channelId
  | .removePost data => chan data.id = data.channel_id
  | _ => True

/-- The working state of `handleReceivedPosts` when its loop ends. -/
def received (s : State) (data : PostList) (channelId : String) : PostMap × List String :=
  data.posts.foldl receiveStep (s.posts, (s.postsByChannel channelId).getD [])

/-- The record is a posts-received (batch) record. -/
def IsBatch : Action → Prop
  | .receivedPosts _ _ => True
  | _ => False

/-- The record is a batch whose non-deleted posts carry the creation time `cr`
gives to their identifier. -/
def StampedBatch (cr : String → Nat) : Action → Prop
  | .receivedPosts data _ => ∀ p ∈ data.posts, p.delete_at = 0 → p.create_at = cr p.id
  | _ => False

/-- Every channel sequence is in descending order of the `create_at` of the
posts stored under its identifiers. -/
def SortedDesc (s : State) : Prop :=
  ∀ c seq, s.postsByChannel c = some seq →
    seq.Pairwise (fun a b =>
      ∃ pa pb, s.posts a = some pa ∧ s.posts b = some pb ∧ pb.create_at ≤ pa.create_at)

/-- Stored posts carry the creation time `cr` gives to their key, and every
channel sequence lists stored posts in descending order of `cr`. -/
def Stamped (cr : String → Nat) (s : State) : Prop :=
  (∀ k p, s.posts k = some p → p.create_at = cr k) ∧
  ∀ c seq, s.postsByChannel c = some seq →
    (∀ k ∈ seq, s.posts k ≠ none) ∧ seq.Pairwise (fun a b => cr b ≤ cr a)

/-! ## Example data -/

/-- A live post with a message, an attachment and reactions. -/
def mkPost (id channel root : String) (createAt updateAt : Nat) : Post :=
  { id := id, channel_id := channel, root_id := root, user_id := "u1",
    create_at := createAt, update_at := updateAt, delete_at := 0,
    message := "Unit Test", file_ids := ["f1"], has_reactions := true, state := none }

/-- A thread in channel `X`: root `A` with comments `B` and `C`. -/
def threadStore : State where
  posts k :=
    if k = "A" then some (mkPost "A" "X" "" 30 30)
    else if k = "B" then some (mkPost "B" "X" "A" 20 20)
    else if k = "C" then some (mkPost "C" "X" "A" 10 10)
    else none
  postsByChannel k := if k = "X" then some ["A", "B", "C"] else none
  selectedPostId := ""
  currentFocusedPostId := ""

/-- Two posts received in channel `X`, the first of them then removed by a
record that names channel `Y`. -/
def strayRemoval : List Action :=
  [.receivedPost (mkPost "A" "X" "" 10 10), .receivedPost (mkPost "D" "X" "" 20 20),
   .removePost (mkPost "A" "Y" "" 10 10)]

/-- Two batches that carry the post `p1` with different creation times. -/
def restampedBatches : List Action :=
  [.receivedPosts ⟨[mkPost "p1" "X" "" 100 5, mkPost "p2" "X" "" 200 5], []⟩ "X",
   .receivedPosts ⟨[mkPost "p1" "Y" "" 300 1], []⟩ "Y"]

/-- Two batches, keyed to `X` and to `Y`, that carry `p1` with one creation
time. -/
def stampedBatches : List Action :=
  [.receivedPosts ⟨[mkPost "p1" "X" "" 100 5, mkPost "p2" "X" "" 200 5], []⟩ "X",
   .receivedPosts ⟨[mkPost "p1" "X" "" 100 1, mkPost "p3" "Y" "" 200 1], []⟩ "Y"]

/-- A run that presents every identifier in channel `X`. -/
def tidyRun : List Action :=
  [.receivedPosts ⟨[mkPost "p1" "X" "" 100 5, mkPost "p2" "X" "" 200 5], []⟩ "X",
   .receivedPost (mkPost "p3" "X" "p1" 50 50),
   .postDeleted (mkPost "p2" "X" "" 200 5),
   .removePost (mkPost "p1" "X" "" 100 5)]

/-! ## Further predicates and auxiliary definitions -/

/-- No identifier appears more than once within a channel sequence. -/
def NoDuplicates (s : State) : Prop :=
  ∀ c seq, s.postsByChannel c = some seq → seq.Nodup

/-- The action creator `selectPost` of `actions/posts.js`: the records it
dispatches. -/
def selectPost (postId : String) : List Action :=
  [.receivedPostSelected postId]

/-- The identifiers of the non-deleted incoming posts that are not in `old`,
in the order of the batch. -/
def incomingIds (old : List String) (batch : List Post) : List String :=
  ((batch.filter (fun p => decide (p.delete_at = 0))).map Post.id).filter
    (fun k => decide (k ∉ old))

/-- The list without the later repetitions of its elements. -/
def keepFirst : List String → List String
  | [] => []
  | a :: l => a :: (keepFirst l).filter (fun k => decide (k ≠ a))

/-! ## The action creators of `actions/posts.js` -/

/-- An error raised by the client. -/
structure ClientError where
  message : String
  status_code : Nat
deriving DecidableEq, Repr

/-- The remote operations whose request, success and failure record types the
fetching action creators use (`GET_POSTS_REQUEST`, `GET_POSTS_SUCCESS`,
`GET_POSTS_FAILURE`, and so on). -/
inductive Operation where
  | getPostThread
  | getPosts
  | getPostsSince
  | getPostsBefore
  | getPostsAfter
deriving DecidableEq, Repr

/-- A record an action creator dispatches. `entity` wraps the records the posts
reducer distinguishes. -/
inductive Record where
  | request (op : Operation)
  | success (op : Operation)
  | failure (op : Operation) (error : ClientError)
  | logError (error : ClientError)
  | entity (action : Action)
deriving DecidableEq, Repr

/-- One call of `dispatch`: a single record, or `batchActions([...])`. -/
inductive Dispatched where
  | single (record : Record)
  | batch (records : List Record)
deriving DecidableEq, Repr

/-- How the posts reducer sees a record: request, success, failure and log
records have types it does not recognise. -/
def Record.toAction : Record → Action
  | .entity action => action
  | _ => .other

/-- The records of one call of `dispatch`, in order. -/
def Dispatched.records : Dispatched → List Record
  | .single record => [record]
  | .batch records => records

/-- Modelled from the spec: the store (`configureStore` and the batching
reducer of `redux-batched-actions`, not among the sources) folds the records of
every dispatch, those of a batch one after the other, through the reducer. -/
def reduceDispatched (state : State) (log : List Dispatched) : Except JsError State :=
  run state ((log.map Dispatched.records).flatten.map Record.toAction)

/-- Modelled from the spec: `getLogErrorAction` of `actions/errors`, which is
not among the sources, builds the diagnostic log record for an error. -/
def getLogErrorAction (error : ClientError) : Record := .logError error

/-- Modelled from the spec: `forceLogoutIfNecessary` of `actions/helpers`, which
is not among the sources, triggers the logout when the error shows that the
session is no longer valid; `sessionExpired` is that check. -/
def forceLogoutIfNecessary (sessionExpired : ClientError → Bool) (error : ClientError) :
    List Dispatched :=
  if sessionExpired error then [.single (.entity .logoutSuccess)] else []

/-- The part of `getState().entities.users` the action creators read:
`profiles u` and `statuses u` tell whether `profiles[u]` and `statuses[u]` hold
an entry (a truthy value). -/
structure UsersState where
  profiles : String → Bool
  statuses : String → Bool

/-- A call of one of the two fetches of `actions/users`. -/
inductive SideFetch where
  | getProfilesByIds (userIds : List String)
  | getStatusesByIds (userIds : List String)
deriving DecidableEq, Repr

/-- The body of the `forEach` of `getProfilesAndStatusesForPosts`; `acc` holds
`profilesToLoad` and `statusesToLoad`. -/
def collectAuthor (users : UsersState) (acc : List String × List String) (post : Post) :
    List String × List String :=
  let userId := post.user_id
  (if !users.profiles userId then acc.1 ++ [userId] else acc.1,
   if !users.statuses userId then acc.2 ++ [userId] else acc.2)

/-- `getProfilesAndStatusesForPosts`: the fetches it issues, in order. -/
def getProfilesAndStatusesForPosts (users : UsersState) (list : PostList) : List SideFetch :=
  let toLoad := list.posts.foldl (collectAuthor users) ([], [])
  (if toLoad.1.length ≠ 0 then [SideFetch.getProfilesByIds toLoad.1] else []) ++
  (if toLoad.2.length ≠ 0 then [SideFetch.getStatusesByIds toLoad.2] else [])

/-- The remote operations of `Client4` the fetching action creators call; each
returns the payload or raises. -/
structure Client4 where
  getPosts : String → Nat → Nat → Except ClientError PostList
  getPostsSince : String → Nat → Except ClientError PostList
  getPostsBefore : String → String → Nat → Nat → Except ClientError PostList
  getPostsAfter : String → String → Nat → Nat → Except ClientError PostList

/-- What a fetching action creator has done when its promise resolves: the
calls of `dispatch` it made itself, the side fetches it started, and the value
it resolves with (`none` is `null`). -/
structure Fetched where
  dispatched : List Dispatched
  sideFetches : List SideFetch
  returned : Option PostList

/-- `getPosts`: `users` is the users state read when the side fetch starts. -/
def getPosts (client : Client4) (users : UsersState) (sessionExpired : ClientError → Bool)
    (channelId : String) (page perPage : Nat) : Fetched :=
  match client.getPosts channelId page perPage with
  | .error error =>
    { dispatched :=
        [.single (.request .getPosts)] ++ forceLogoutIfNecessary sessionExpired error ++
          [.batch [.failure .getPosts error, getLogErrorAction error]]
      sideFetches := []
      returned := none }
  | .ok posts =>
    { dispatched :=
        [.single (.request .getPosts),
         .batch [.entity (.receivedPosts posts channelId), .success .getPosts]]
      sideFetches := getProfilesAndStatusesForPosts users posts
      returned := some posts }

/-- `getPostsSince`. -/
def getPostsSince (client : Client4) (users : UsersState) (sessionExpired : ClientError → Bool)
    (channelId : String) (since : Nat) : Fetched :=
  match client.getPostsSince channelId since with
  | .error error =>
    { dispatched :=
        [.single (.request .getPostsSince)] ++ forceLogoutIfNecessary sessionExpired error ++
          [.batch [.failure .getPostsSince error, getLogErrorAction error]]
      sideFetches := []
      returned := none }
  | .ok posts =>
    { dispatched :=
        [.single (.request .getPostsSince),
         .batch [.entity (.receivedPosts posts channelId), .success .getPostsSince]]
      sideFetches := getProfilesAndStatusesForPosts users posts
      returned := some posts }

/-- `getPostsBefore`. -/
def getPostsBefore (client : Client4) (users : UsersState) (sessionExpired : ClientError → Bool)
    (channelId postId : String) (page perPage : Nat) : Fetched :=
  match client.getPostsBefore channelId postId page perPage with
  | .error error =>
    { dispatched :=
        [.single (.request .getPostsBefore)] ++ forceLogoutIfNecessary sessionExpired error ++
          [.batch [.failure .getPostsBefore error, getLogErrorAction error]]
      sideFetches := []
      returned := none }
  | .ok posts =>
    { dispatched :=
        [.single (.request .getPostsBefore),
         .batch [.entity (.receivedPosts posts channelId), .success .getPostsBefore]]
      sideFetches := getProfilesAndStatusesForPosts users posts
      returned := some posts }

/-- `getPostsAfter`. -/
def getPostsAfter (client : Client4) (users : UsersState) (sessionExpired : ClientError → Bool)
    (channelId postId : String) (page perPage : Nat) : Fetched :=
  match client.getPostsAfter channelId postId page perPage with
  | .error error =>
    { dispatched :=
        [.single (.request .getPostsAfter)] ++ forceLogoutIfNecessary sessionExpired error ++
          [.batch [.failure .getPostsAfter error, getLogErrorAction error]]
      sideFetches := []
      returned := none }
  | .ok posts =>
    { dispatched :=
        [.single (.request .getPostsAfter),
         .batch [.entity (.receivedPosts posts channelId), .success .getPostsAfter]]
      sideFetches := getProfilesAndStatusesForPosts users posts
      returned := some posts }

/-! ## Further example data -/

/-- A batch keyed to `X` for the thread store: a newer copy of `B`, a deleted
post `G` and two new posts with the same creation time. -/
def threadBatch : PostList :=
  { posts :=
      [mkPost "B" "X" "A" 40 1,
       { mkPost "G" "X" "" 60 60 with delete_at := 70 },
       mkPost "E" "X" "" 25 3,
       mkPost "F" "X" "" 25 4]
    order := ["B", "G", "E", "F"] }

/-- A users state with nothing cached. -/
def noUsers : UsersState := { profiles := fun _ => false, statuses := fun _ => false }

/-- A client whose every call fails with a server error. -/
def failingClient : Client4 :=
  { getPosts := fun _ _ _ => .error ⟨"down", 500⟩
    getPostsSince := fun _ _ => .error ⟨"down", 500⟩
    getPostsBefore := fun _ _ _ _ => .error ⟨"down", 500⟩
    getPostsAfter := fun _ _ _ _ => .error ⟨"down", 500⟩ }

/-! ## The action creator `getPostThread` -/

/-- What `getPostThread` has done when its promise settles: the calls of
`dispatch` it made itself, the side fetches it started, and the exception it
rejects with (`none` when it resolves). -/
structure ThreadFetched where
  dispatched : List Dispatched
  sideFetches : List SideFetch
  raised : Option JsError

/-- `getPostThread`: `remote` is `Client4.getPostThread`. The `posts` object of
the payload is keyed by post identifier, so `posts.posts[postId]` is the listed
post with that identifier, and `undefined` when there is none. -/
def getPostThread (remote : String → Except ClientError PostList) (users : UsersState)
    (sessionExpired : ClientError → Bool) (postId : String) : ThreadFetched :=
  match remote postId with
  | .error error =>
    { dispatched :=
        [.single (.request .getPostThread)] ++ forceLogoutIfNecessary sessionExpired error ++
          [.batch [.failure .getPostThread error, getLogErrorAction error]]
      sideFetches := []
      raised := none }
  | .ok posts =>
    match posts.posts.find? (fun p => decide (p.id = postId)) with
    | none =>
      { dispatched := [.single (.request .getPostThread)]
        sideFetches := getProfilesAndStatusesForPosts users posts
        raised := some .typeError }
    | some post =>
      { dispatched :=
          [.single (.request .getPostThread),
           .batch [.entity (.receivedPosts posts post.channel_id), .success .getPostThread]]
        sideFetches := getProfilesAndStatusesForPosts users posts
        raised := none }

/-- A client whose every call succeeds with the thread batch. -/
def servingClient : Client4 :=
  { getPosts := fun _ _ _ => .ok threadBatch
    getPostsSince := fun _ _ => .ok threadBatch
    getPostsBefore := fun _ _ _ _ => .ok threadBatch
    getPostsAfter := fun _ _ _ _ => .ok threadBatch }

/-! ## Lemmas -/

/-- The state the reducer returns, spelled out: the state given when the test
of lines 196-198 passes, the new state otherwise. -/
theorem reducer_unfold (state : State) (action : Action) :
    reducer state action =
      match handlePosts state.posts state.postsByChannel action with
      | .error e => .error e
      | .ok slice =>
        if unchanged state slice (selectedPostId state.selectedPostId action)
            (currentFocusedPostId state.currentFocusedPostId action) then
          .ok state
        else
          .ok { posts := slice.posts
                postsByChannel := slice.postsByChannel
                selectedPostId := selectedPostId state.selectedPostId action
                currentFocusedPostId :=
                  currentFocusedPostId state.currentFocusedPostId action } := by
  unfold reducer reducerReturn
  cases handlePosts state.posts state.postsByChannel action with
  | error e => rfl
  | ok slice =>
    by_cases h : unchanged state slice (selectedPostId state.selectedPostId action)
        (currentFocusedPostId state.currentFocusedPostId action) = true
    · simp [h]
    · simp [h]

theorem reducer_postDeleted_none (s : State) (post : Post) (h : s.posts post.id = none) :
    reducer s (.postDeleted post) = .ok s := by
  simp [reducer_unfold, handlePosts, handlePostDeleted, h, unchanged, selectedPostId,
    currentFocusedPostId]

theorem reducer_postDeleted_some (s : State) (post stored : Post)
    (h : s.posts post.id = some stored) :
    reducer s (.postDeleted post) = .ok
      { s with
        posts := Function.update s.posts post.id
          (some { stored with state := some POST_DELETED, file_ids := [], has_reactions := false }) } := by
  simp [reducer_unfold, handlePosts, handlePostDeleted, h, unchanged, selectedPostId,
    currentFocusedPostId]

theorem compareCreateAt_ok (posts : PostMap) (a b : String)
    (ha : posts a ≠ none) (hb : posts b ≠ none) :
    ∃ c, compareCreateAt posts a b = .ok c ∧ (c ≤ 0 ↔ newerFirst posts a b) := by
  obtain ⟨pa, hpa⟩ := Option.ne_none_iff_exists'.mp ha
  obtain ⟨pb, hpb⟩ := Option.ne_none_iff_exists'.mp hb
  simp only [compareCreateAt, hpa, hpb, newerFirst, createAtOf]
  by_cases h1 : pa.create_at > pb.create_at
  · exact ⟨-1, by simp [h1], by simp; omega⟩
  · by_cases h2 : pa.create_at < pb.create_at
    · exact ⟨1, by simp [h1, h2], by simp; omega⟩
    · exact ⟨0, by simp [h1, h2], by simp; omega⟩

theorem insertBy_ok (posts : PostMap) (a : String) (ha : posts a ≠ none) :
    ∀ l : List String, (∀ k ∈ l, posts k ≠ none) →
      insertBy (compareCreateAt posts) a l = .ok (l.orderedInsert (newerFirst posts) a)
  | [], _ => rfl
  | b :: l, h => by
    obtain ⟨c, hc, hiff⟩ := compareCreateAt_ok posts a b ha (h b (List.mem_cons_self _ _))
    have ih := insertBy_ok posts a ha l (fun k hk => h k (List.mem_cons_of_mem _ hk))
    by_cases hr : newerFirst posts a b
    · simp [insertBy, hc, hiff.mpr hr, List.orderedInsert, hr]
    · have : ¬ c ≤ 0 := fun h0 => hr (hiff.mp h0)
      simp [insertBy, hc, this, List.orderedInsert, hr, ih]

theorem sortBy_ok (posts : PostMap) :
    ∀ l : List String, (∀ k ∈ l, posts k ≠ none) →
      sortBy (compareCreateAt posts) l = .ok (l.insertionSort (newerFirst posts))
  | [], _ => rfl
  | a :: l, h => by
    have ih := sortBy_ok posts l (fun k hk => h k (List.mem_cons_of_mem _ hk))
    have hs : ∀ k ∈ l.insertionSort (newerFirst posts), posts k ≠ none := fun k hk =>
      h k (List.mem_cons_of_mem _ (((List.perm_insertionSort _ l).mem_iff).mp hk))
    simp only [sortBy, ih, List.insertionSort]
    exact insertBy_ok posts a (h a (List.mem_cons_self _ _)) _ hs

/-! ### The loop of `handleReceivedPosts` -/

theorem mergePost_of_ne (posts : PostMap) (n : Post) (k : String) (h : k ≠ n.id) :
    mergePost posts n k = posts k := by
  cases hp : posts n.id with
  | none => simp only [mergePost, hp]; exact Function.update_noteq h _ _
  | some old =>
    simp only [mergePost, hp]
    split
    · exact Function.update_noteq h _ _
    · rfl

theorem mergePost_self (posts : PostMap) (n : Post) :
    ∃ q, mergePost posts n n.id = some q ∧ q.update_at ≤ n.update_at ∧
      (q = n ∨ posts n.id = some q) := by
  cases hp : posts n.id with
  | none => simp only [mergePost, hp]; exact ⟨n, by simp, le_refl _, Or.inl rfl⟩
  | some old =>
    simp only [mergePost, hp]
    split
    · exact ⟨n, by simp, le_refl _, Or.inl rfl⟩
    · rename_i hle
      exact ⟨old, hp, Nat.le_of_not_lt hle, Or.inr rfl⟩

theorem mergePost_origin (posts : PostMap) (n : Post) (k : String) (p : Post)
    (h : mergePost posts n k = some p) : posts k = some p ∨ (p = n ∧ k = n.id) := by
  by_cases hk : k = n.id
  · subst hk
    obtain ⟨q, hq, _, hor⟩ := mergePost_self posts n
    rw [hq] at h
    cases h
    rcases hor with h1 | h1
    · exact Or.inr ⟨h1, rfl⟩
    · exact Or.inl h1
  · rw [mergePost_of_ne posts n k hk] at h
    exact Or.inl h

theorem mergePost_bound (posts : PostMap) (n : Post) (k : String) (u : Nat)
    (h : ∃ q, posts k = some q ∧ q.update_at ≤ u) :
    ∃ q, mergePost posts n k = some q ∧ q.update_at ≤ u := by
  by_cases hk : k = n.id
  · subst hk
    obtain ⟨q, hq, hle⟩ := h
    unfold mergePost
    simp only [hq]
    split
    · rename_i hlt
      exact ⟨n, by simp, by omega⟩
    · exact ⟨q, hq, hle⟩
  · rw [mergePost_of_ne posts n k hk]
    exact h

theorem mergePost_fixed (posts : PostMap) (n : Post)
    (h : ∃ q, posts n.id = some q ∧ q.update_at ≤ n.update_at) : mergePost posts n = posts := by
  obtain ⟨q, hq, hle⟩ := h
  unfold mergePost
  simp only [hq]
  rw [if_neg (by omega)]

theorem mergePost_present (posts : PostMap) (n : Post) (k : String) (h : posts k ≠ none) :
    mergePost posts n k ≠ none := by
  obtain ⟨q, hq⟩ := Option.ne_none_iff_exists'.mp h
  obtain ⟨q', hq', _⟩ := mergePost_bound posts n k q.update_at ⟨q, hq, le_refl _⟩
  simp [hq']

theorem receiveStep_deleted (acc : PostMap × List String) (n : Post) (h : n.delete_at ≠ 0) :
    receiveStep acc n = acc := by
  simp [receiveStep, Nat.pos_of_ne_zero h]

theorem receiveStep_live (acc : PostMap × List String) (n : Post) (h : n.delete_at = 0) :
    receiveStep acc n =
      (mergePost acc.1 n, if n.id ∈ acc.2 then acc.2 else acc.2 ++ [n.id]) := by
  simp [receiveStep, h]

theorem receiveStep_settled_mono (acc : PostMap × List String) (m n : Post)
    (h : Settled acc n) : Settled (receiveStep acc m) n := by
  by_cases hm : m.delete_at = 0
  · rw [receiveStep_live acc m hm]
    refine ⟨mergePost_bound acc.1 m n.id n.update_at h.1, ?_⟩
    show n.id ∈ (if m.id ∈ acc.2 then acc.2 else acc.2 ++ [m.id])
    split
    · exact h.2
    · exact List.mem_append_left _ h.2
  · rw [receiveStep_deleted acc m hm]
    exact h

theorem receiveStep_settles (acc : PostMap × List String) (n : Post) (h : n.delete_at = 0) :
    Settled (receiveStep acc n) n := by
  rw [receiveStep_live acc n h]
  obtain ⟨q, hq, hle, _⟩ := mergePost_self acc.1 n
  refine ⟨⟨q, hq, hle⟩, ?_⟩
  show n.id ∈ (if n.id ∈ acc.2 then acc.2 else acc.2 ++ [n.id])
  split
  · assumption
  · simp

theorem receiveStep_fixed (acc : PostMap × List String) (n : Post)
    (h : n.delete_at = 0 → Settled acc n) : receiveStep acc n = acc := by
  by_cases hn : n.delete_at = 0
  · rw [receiveStep_live acc n hn, mergePost_fixed acc.1 n (h hn).1, if_pos (h hn).2]
  · exact receiveStep_deleted acc n hn

theorem foldl_settled_mono (batch : List Post) (n : Post) :
    ∀ acc : PostMap × List String, Settled acc n → Settled (batch.foldl receiveStep acc) n := by
  induction batch with
  | nil => intro acc h; exact h
  | cons m rest ih =>
    intro acc h
    exact ih _ (receiveStep_settled_mono acc m n h)

theorem foldl_settles (batch : List Post) :
    ∀ acc : PostMap × List String, ∀ n ∈ batch, n.delete_at = 0 →
      Settled (batch.foldl receiveStep acc) n := by
  induction batch with
  | nil => intro acc n hn; cases hn
  | cons m rest ih =>
    intro acc n hn hlive
    rcases List.mem_cons.mp hn with h | h
    · subst h
      exact foldl_settled_mono rest n _ (receiveStep_settles acc n hlive)
    · exact ih _ n h hlive

theorem foldl_fixed (batch : List Post) (acc : PostMap × List String)
    (h : ∀ n ∈ batch, n.delete_at = 0 → Settled acc n) :
    batch.foldl receiveStep acc = acc := by
  induction batch with
  | nil => rfl
  | cons m rest ih =>
    rw [List.foldl_cons, receiveStep_fixed acc m (h m (List.mem_cons_self _ _))]
    exact ih (fun n hn => h n (List.mem_cons_of_mem _ hn))

/-- Where the result of the loop comes from. -/
theorem foldl_origin (batch : List Post) :
    ∀ acc : PostMap × List String,
      (∀ k p, (batch.foldl receiveStep acc).1 k = some p →
        acc.1 k = some p ∨ (p ∈ batch ∧ p.delete_at = 0 ∧ p.id = k)) ∧
      (∀ k, k ∈ (batch.foldl receiveStep acc).2 →
        k ∈ acc.2 ∨ ∃ p ∈ batch, p.delete_at = 0 ∧ p.id = k) := by
  induction batch with
  | nil => intro acc; exact ⟨fun k p h => Or.inl h, fun k h => Or.inl h⟩
  | cons m rest ih =>
    intro acc
    obtain ⟨ih1, ih2⟩ := ih (receiveStep acc m)
    have step1 : ∀ k p, (receiveStep acc m).1 k = some p →
        acc.1 k = some p ∨ (p = m ∧ m.delete_at = 0 ∧ p.id = k) := by
      intro k p h
      by_cases hm : m.delete_at = 0
      · rw [receiveStep_live acc m hm] at h
        rcases mergePost_origin acc.1 m k p h with h1 | ⟨h1, h2⟩
        · exact Or.inl h1
        · exact Or.inr ⟨h1, hm, by rw [h1, h2]⟩
      · rw [receiveStep_deleted acc m hm] at h
        exact Or.inl h
    have step2 : ∀ k, k ∈ (receiveStep acc m).2 → k ∈ acc.2 ∨ (m.delete_at = 0 ∧ m.id = k) := by
      intro k h
      by_cases hm : m.delete_at = 0
      · rw [receiveStep_live acc m hm] at h
        change k ∈ (if m.id ∈ acc.2 then acc.2 else acc.2 ++ [m.id]) at h
        split at h
        · exact Or.inl h
        · rcases List.mem_append.mp h with h1 | h1
          · exact Or.inl h1
          · exact Or.inr ⟨hm, (List.mem_singleton.mp h1).symm⟩
      · rw [receiveStep_deleted acc m hm] at h
        exact Or.inl h
    constructor
    · intro k p h
      rcases ih1 k p h with h1 | ⟨h1, h2, h3⟩
      · rcases step1 k p h1 with h4 | ⟨h4, h5, h6⟩
        · exact Or.inl h4
        · exact Or.inr ⟨h4 ▸ List.mem_cons_self _ _, h4 ▸ h5, h6⟩
      · exact Or.inr ⟨List.mem_cons_of_mem _ h1, h2, h3⟩
    · intro k h
      rcases ih2 k h with h1 | ⟨p, h1, h2, h3⟩
      · rcases step2 k h1 with h4 | ⟨h4, h5⟩
        · exact Or.inl h4
        · exact Or.inr ⟨m, List.mem_cons_self _ _, h4, h5⟩
      · exact Or.inr ⟨p, List.mem_cons_of_mem _ h1, h2, h3⟩

/-- What the loop keeps: stored keys stay stored, listed identifiers stay
listed, a duplicate-free list stays duplicate-free, and listed identifiers
are stored if they were. -/
theorem foldl_keeps (batch : List Post) :
    ∀ acc : PostMap × List String,
      (∀ k, acc.1 k ≠ none → (batch.foldl receiveStep acc).1 k ≠ none) ∧
      (∀ k, k ∈ acc.2 → k ∈ (batch.foldl receiveStep acc).2) ∧
      (acc.2.Nodup → (batch.foldl receiveStep acc).2.Nodup) ∧
      ((∀ k ∈ acc.2, acc.1 k ≠ none) →
        ∀ k ∈ (batch.foldl receiveStep acc).2, (batch.foldl receiveStep acc).1 k ≠ none) := by
  induction batch with
  | nil => intro acc; exact ⟨fun _ h => h, fun _ h => h, fun h => h, fun h => h⟩
  | cons m rest ih =>
    intro acc
    obtain ⟨ih1, ih2, ih3, ih4⟩ := ih (receiveStep acc m)
    by_cases hm : m.delete_at = 0
    · have hstep := receiveStep_live acc m hm
      have h1 : ∀ k, acc.1 k ≠ none → (receiveStep acc m).1 k ≠ none := by
        intro k hk; rw [hstep]; exact mergePost_present acc.1 m k hk
      have h2 : ∀ k, k ∈ acc.2 → k ∈ (receiveStep acc m).2 := by
        intro k hk; rw [hstep]
        show k ∈ (if m.id ∈ acc.2 then acc.2 else acc.2 ++ [m.id])
        split
        · exact hk
        · exact List.mem_append_left _ hk
      have h3 : acc.2.Nodup → (receiveStep acc m).2.Nodup := by
        intro hnd; rw [hstep]
        show (if m.id ∈ acc.2 then acc.2 else acc.2 ++ [m.id]).Nodup
        split
        · exact hnd
        · rename_i hmem
          exact List.Nodup.append hnd (List.nodup_singleton _)
            (by simpa [List.disjoint_singleton] using hmem)
      have h4 : (∀ k ∈ acc.2, acc.1 k ≠ none) →
          ∀ k ∈ (receiveStep acc m).2, (receiveStep acc m).1 k ≠ none := by
        intro hall k hk
        rw [hstep] at hk ⊢
        change k ∈ (if m.id ∈ acc.2 then acc.2 else acc.2 ++ [m.id]) at hk
        have hin : k ∈ acc.2 ∨ k = m.id := by
          split at hk
          · exact Or.inl hk
          · rcases List.mem_append.mp hk with h | h
            · exact Or.inl h
            · exact Or.inr (List.mem_singleton.mp h)
        rcases hin with h | h
        · exact mergePost_present acc.1 m k (hall k h)
        · subst h
          obtain ⟨q, hq, _⟩ := mergePost_self acc.1 m
          show mergePost acc.1 m m.id ≠ none
          simp [hq]
      exact ⟨fun k hk => ih1 k (h1 k hk), fun k hk => ih2 k (h2 k hk),
        fun hnd => ih3 (h3 hnd), fun hall => ih4 (h4 hall)⟩
    · have hstep := receiveStep_deleted acc m hm
      simp only [List.foldl_cons, hstep]
      rw [hstep] at ih1 ih2 ih3 ih4
      exact ⟨ih1, ih2, ih3, ih4⟩

/-! ### The cascade loop of `handleRemovePost` -/

/-- The fuel `handleRemovePost` gives the cascade loop is never used up: the
index grows with every iteration and the array never does. -/
theorem removeComments_fuel (postId : String) :
    ∀ (fuel i : Nat) (nextPosts : PostMap) (seq : List String),
      seq.length ≤ fuel + i →
      removeComments postId fuel i nextPosts seq ≠ .error .outOfFuel := by
  intro fuel
  induction fuel with
  | zero =>
    intro i nextPosts seq hlen
    have hnone : seq[i]? = none := List.getElem?_eq_none (by omega)
    rw [removeComments, hnone]
    exact fun h => by cases h
  | succ fuel ih =>
    intro i nextPosts seq hlen
    cases hget : seq[i]? with
    | none =>
      rw [removeComments, hget]
      exact fun h => by cases h
    | some id =>
      rw [removeComments, hget]
      cases hpost : nextPosts id with
      | none =>
        simp only [hpost]
        exact fun h => by cases h
      | some comment =>
        have hlen' : (seq.eraseIdx (List.indexOf id seq)).length ≤ fuel + (i + 1) := by
          have := List.length_eraseIdx_le seq (List.indexOf id seq)
          omega
        by_cases hroot : comment.root_id = postId
        · simp only [hpost, hroot, if_true]
          exact ih (i + 1) _ _ hlen'
        · simp only [hpost, hroot, if_false]
          exact ih (i + 1) nextPosts seq (by omega)

/-- On a duplicate-free sequence whose identifiers are all stored, the cascade
loop runs to its end within the fuel `handleRemovePost` gives it. -/
theorem removeComments_spec (postId : String) :
    ∀ (fuel i : Nat) (nextPosts : PostMap) (seq : List String),
      seq.Nodup → (∀ k ∈ seq, nextPosts k ≠ none) → seq.length ≤ fuel + i →
      ∃ posts' seq', removeComments postId fuel i nextPosts seq = .ok (posts', seq') ∧
        seq'.Sublist seq ∧
        (∀ k, k ∈ seq' → posts' k = nextPosts k) ∧
        (∀ k, k ∉ seq → posts' k = nextPosts k) ∧
        (∀ k, k ∈ seq → k ∉ seq' →
          posts' k = none ∧ ∃ p, nextPosts k = some p ∧ p.root_id = postId) := by
  intro fuel
  induction fuel with
  | zero =>
    intro i nextPosts seq _ _ hlen
    have hnone : seq[i]? = none := List.getElem?_eq_none (by omega)
    refine ⟨nextPosts, seq, ?_, List.Sublist.refl _, fun _ _ => rfl, fun _ _ => rfl,
      fun k h1 h2 => absurd h1 h2⟩
    rw [removeComments, hnone]
  | succ fuel ih =>
    intro i nextPosts seq hnd hall hlen
    cases hget : seq[i]? with
    | none =>
      refine ⟨nextPosts, seq, ?_, List.Sublist.refl _, fun _ _ => rfl, fun _ _ => rfl,
        fun k h1 h2 => absurd h1 h2⟩
      rw [removeComments, hget]
    | some id =>
      have hid : id ∈ seq := List.getElem?_mem hget
      obtain ⟨comment, hcomment⟩ := Option.ne_none_iff_exists'.mp (hall id hid)
      by_cases hroot : comment.root_id = postId
      · have hnd' : (seq.erase id).Nodup := hnd.erase id
        have hall' : ∀ k ∈ seq.erase id, Function.update nextPosts id none k ≠ none := by
          intro k hk
          obtain ⟨hne, hmem⟩ := hnd.mem_erase_iff.mp hk
          rw [Function.update_noteq hne]
          exact hall k hmem
        have hlen' : (seq.erase id).length ≤ fuel + (i + 1) := by
          rw [List.length_erase_of_mem hid]; omega
        obtain ⟨posts', seq', hrun, hsub, hkeep, hout, hdrop⟩ :=
          ih (i + 1) (Function.update nextPosts id none) (seq.erase id) hnd' hall' hlen'
        refine ⟨posts', seq', ?_, hsub.trans (List.erase_sublist id seq), ?_, ?_, ?_⟩
        · rw [removeComments, hget]
          simp only [hcomment, hroot, if_true, List.eraseIdx_indexOf_eq_erase]
          exact hrun
        · intro k hk
          have hk' : k ∈ seq.erase id := hsub.subset hk
          rw [hkeep k hk, Function.update_noteq (hnd.mem_erase_iff.mp hk').1]
        · intro k hk
          have hk' : k ∉ seq.erase id := fun h => hk (List.mem_of_mem_erase h)
          have hne : k ≠ id := fun h => hk (h ▸ hid)
          rw [hout k hk', Function.update_noteq hne]
        · intro k hk hk'
          by_cases hne : k = id
          · subst hne
            have : k ∉ seq.erase k := fun h => (hnd.mem_erase_iff.mp h).1 rfl
            refine ⟨?_, comment, hcomment, hroot⟩
            rw [hout k this, Function.update_same]
          · have hmem : k ∈ seq.erase id := hnd.mem_erase_iff.mpr ⟨hne, hk⟩
            obtain ⟨h1, p, h2, h3⟩ := hdrop k hmem hk'
            rw [Function.update_noteq hne] at h2
            exact ⟨h1, p, h2, h3⟩
      · obtain ⟨posts', seq', hrun, hsub, hkeep, hout, hdrop⟩ :=
          ih (i + 1) nextPosts seq hnd hall (by omega)
        refine ⟨posts', seq', ?_, hsub, hkeep, hout, hdrop⟩
        rw [removeComments, hget]
        simp only [hcomment, hroot, if_false]
        exact hrun

/-! ### The reducer, record by record -/

theorem handleReceivedPost_absent (posts : PostMap) (pbc : ChannelMap) (post : Post)
    (hc : pbc post.channel_id = none) :
    handleReceivedPost posts pbc post =
      { posts := Function.update posts post.id (some post)
        postsByChannel := Function.update pbc post.channel_id (some [post.id])
        samePosts := false, samePostsByChannel := false } := by
  simp only [handleReceivedPost, hc]

theorem handleReceivedPost_listed (posts : PostMap) (pbc : ChannelMap) (post : Post)
    (seq : List String) (hc : pbc post.channel_id = some seq) (h : post.id ∈ seq) :
    handleReceivedPost posts pbc post =
      { posts := Function.update posts post.id (some post), postsByChannel := pbc
        samePosts := false, samePostsByChannel := true } := by
  simp only [handleReceivedPost, hc, if_pos h]

theorem handleReceivedPost_unlisted (posts : PostMap) (pbc : ChannelMap) (post : Post)
    (seq : List String) (hc : pbc post.channel_id = some seq) (h : post.id ∉ seq) :
    handleReceivedPost posts pbc post =
      { posts := Function.update posts post.id (some post)
        postsByChannel := Function.update pbc post.channel_id (some (post.id :: seq))
        samePosts := false, samePostsByChannel := false } := by
  simp only [handleReceivedPost, hc, if_neg h]

theorem handleReceivedPost_posts (posts : PostMap) (pbc : ChannelMap) (post : Post) :
    (handleReceivedPost posts pbc post).posts = Function.update posts post.id (some post) ∧
    (handleReceivedPost posts pbc post).samePosts = false := by
  cases hc : pbc post.channel_id with
  | none => rw [handleReceivedPost_absent posts pbc post hc]; exact ⟨rfl, rfl⟩
  | some seq =>
    by_cases h : post.id ∈ seq
    · rw [handleReceivedPost_listed posts pbc post seq hc h]; exact ⟨rfl, rfl⟩
    · rw [handleReceivedPost_unlisted posts pbc post seq hc h]; exact ⟨rfl, rfl⟩

theorem reducer_receivedPost (s : State) (post : Post) :
    reducer s (.receivedPost post) = .ok
      { s with
        posts := Function.update s.posts post.id (some post)
        postsByChannel := (handleReceivedPost s.posts s.postsByChannel post).postsByChannel } := by
  obtain ⟨h1, h2⟩ := handleReceivedPost_posts s.posts s.postsByChannel post
  simp [reducer_unfold, handlePosts, unchanged, h1, h2, selectedPostId, currentFocusedPostId]

theorem reducer_receivedPosts (s : State) (data : PostList) (channelId : String)
    (h : ∀ k ∈ (received s data channelId).2, (received s data channelId).1 k ≠ none) :
    reducer s (.receivedPosts data channelId) = .ok
      { s with
        posts := (received s data channelId).1
        postsByChannel := Function.update s.postsByChannel channelId
          (some ((received s data channelId).2.insertionSort
            (newerFirst (received s data channelId).1))) } := by
  have hs := sortBy_ok _ _ h
  unfold received at hs
  simp [reducer_unfold, handlePosts, handleReceivedPosts, hs, unchanged, selectedPostId,
    currentFocusedPostId, received]

theorem received_present (s : State) (data : PostList) (channelId : String)
    (h : ∀ seq, s.postsByChannel channelId = some seq → ∀ k ∈ seq, s.posts k ≠ none) :
    ∀ k ∈ (received s data channelId).2, (received s data channelId).1 k ≠ none := by
  apply (foldl_keeps data.posts _).2.2.2
  intro k hk
  cases hc : s.postsByChannel channelId with
  | none => simp [hc] at hk
  | some seq =>
    simp only [hc, Option.getD_some] at hk
    exact h seq hc k hk

theorem reducer_removePost_none (s : State) (post : Post) (h : s.posts post.id = none) :
    reducer s (.removePost post) = .ok s := by
  simp [reducer_unfold, handlePosts, handleRemovePost, h, unchanged, selectedPostId,
    currentFocusedPostId]

/-- Removal of a stored post from a channel whose sequence is duplicate-free
and lists stored posts only. -/
theorem reducer_removePost_some (s : State) (post stored : Post)
    (h : s.posts post.id = some stored)
    (hnd : ((s.postsByChannel post.channel_id).getD []).Nodup)
    (hall : ∀ k ∈ (s.postsByChannel post.channel_id).getD [], s.posts k ≠ none) :
    ∃ posts' seq',
      reducer s (.removePost post) = .ok
        { s with
          posts := posts'
          postsByChannel := Function.update s.postsByChannel post.channel_id (some seq') } ∧
      seq'.Sublist (((s.postsByChannel post.channel_id).getD []).erase post.id) ∧
      posts' post.id = none ∧
      (∀ k, k ∈ seq' → posts' k = s.posts k) ∧
      (∀ k, k ∉ (s.postsByChannel post.channel_id).getD [] → k ≠ post.id →
        posts' k = s.posts k) ∧
      (∀ k, k ∈ (s.postsByChannel post.channel_id).getD [] → k ∉ seq' → k ≠ post.id →
        posts' k = none ∧ ∃ p, s.posts k = some p ∧ p.root_id = post.id) := by
  have hnd1 : (((s.postsByChannel post.channel_id).getD []).erase post.id).Nodup :=
    hnd.erase _
  have hall1 : ∀ k ∈ ((s.postsByChannel post.channel_id).getD []).erase post.id,
      Function.update s.posts post.id none k ≠ none := by
    intro k hk
    obtain ⟨hne, hmem⟩ := hnd.mem_erase_iff.mp hk
    rw [Function.update_noteq hne]
    exact hall k hmem
  obtain ⟨posts', seq', hrun, hsub, hkeep, hout, hdrop⟩ :=
    removeComments_spec post.id _ 0 _ _ hnd1 hall1 (Nat.le_refl _)
  have hnot : post.id ∉ ((s.postsByChannel post.channel_id).getD []).erase post.id :=
    fun hm => (hnd.mem_erase_iff.mp hm).1 rfl
  refine ⟨posts', seq', ?_, hsub, ?_, ?_, ?_, ?_⟩
  · simp [reducer_unfold, handlePosts, handleRemovePost, h, List.eraseIdx_indexOf_eq_erase, hrun,
      unchanged, selectedPostId, currentFocusedPostId]
  · rw [hout _ hnot, Function.update_same]
  · intro k hk
    have hk' := hsub.subset hk
    rw [hkeep k hk, Function.update_noteq (hnd.mem_erase_iff.mp hk').1]
  · intro k hk hne
    rw [hout k (fun hm => hk (List.mem_of_mem_erase hm)), Function.update_noteq hne]
  · intro k hk hk' hne
    obtain ⟨h1, p, h2, h3⟩ := hdrop k (hnd.mem_erase_iff.mpr ⟨hne, hk⟩) hk'
    rw [Function.update_noteq hne] at h2
    exact ⟨h1, p, h2, h3⟩

theorem reducer_receivedPostSelected (s : State) (i : String) :
    reducer s (.receivedPostSelected i) = .ok { s with selectedPostId := i } := by
  by_cases h : s.selectedPostId = i
  · subst h
    simp [reducer_unfold, handlePosts, unchanged, selectedPostId, currentFocusedPostId]
  · simp [reducer_unfold, handlePosts, unchanged, selectedPostId, currentFocusedPostId, h]

theorem reducer_other (s : State) : reducer s .other = .ok s := by
  simp [reducer_unfold, handlePosts, unchanged, selectedPostId, currentFocusedPostId]

theorem reducer_logoutSuccess (s : State) : reducer s .logoutSuccess = .ok State.empty := rfl

theorem tidy_getD (s : State) (hs : Tidy s) (c : String) :
    ((s.postsByChannel c).getD []).Nodup ∧
      ∀ k ∈ (s.postsByChannel c).getD [], s.posts k ≠ none := by
  cases hc : s.postsByChannel c with
  | none => simp
  | some seq => simpa using hs c seq hc

/-- On a tidy store the reducer returns a state for every record. -/
theorem reducer_ok_of_tidy (s : State) (hs : Tidy s) (a : Action) :
    ∃ s', reducer s a = .ok s' := by
  cases a with
  | receivedPost p => exact ⟨_, reducer_receivedPost s p⟩
  | receivedPosts data c =>
    exact ⟨_, reducer_receivedPosts s data c
      (received_present s data c (fun seq hc => (hs c seq hc).2))⟩
  | postDeleted p =>
    cases h : s.posts p.id with
    | none => exact ⟨_, reducer_postDeleted_none s p h⟩
    | some stored => exact ⟨_, reducer_postDeleted_some s p stored h⟩
  | removePost p =>
    cases h : s.posts p.id with
    | none => exact ⟨_, reducer_removePost_none s p h⟩
    | some stored =>
      obtain ⟨hnd, hall⟩ := tidy_getD s hs p.channel_id
      obtain ⟨posts', seq', hrun, _⟩ := reducer_removePost_some s p stored h hnd hall
      exact ⟨_, hrun⟩
  | receivedPostSelected i => exact ⟨_, reducer_receivedPostSelected s i⟩
  | logoutSuccess => exact ⟨_, reducer_logoutSuccess s⟩
  | other => exact ⟨_, reducer_other s⟩

/-! ### Invariants along a run -/

theorem update_some_present (posts : PostMap) (j : String) (p : Post) (k : String)
    (h : posts k ≠ none) : Function.update posts j (some p) k ≠ none := by
  by_cases hk : k = j
  · subst hk; simp
  · rwa [Function.update_noteq hk]

theorem channel_update_cases (pbc : ChannelMap) (ch : String) (new : List String)
    (c : String) (seq : List String)
    (h : Function.update pbc ch (some new) c = some seq) :
    (c = ch ∧ seq = new) ∨ (c ≠ ch ∧ pbc c = some seq) := by
  by_cases hc : c = ch
  · subst hc
    rw [Function.update_same] at h
    exact Or.inl ⟨rfl, (Option.some.inj h).symm⟩
  · rw [Function.update_noteq hc] at h
    exact Or.inr ⟨hc, h⟩

theorem owned_getD (chan : String → String) (s : State) (ho : Owned chan s) (c : String) :
    ∀ k ∈ (s.postsByChannel c).getD [], chan k = c := by
  cases hc : s.postsByChannel c with
  | none => simp
  | some seq => simpa using ho c seq hc

theorem tidy_empty : Tidy State.empty := by
  intro c seq h; cases h

theorem owned_empty (chan : String → String) : Owned chan State.empty := by
  intro c seq h; cases h

theorem step_receivedPost (chan : String → String) (s : State) (hs : Tidy s)
    (ho : Owned chan s) (p : Post) (hc : chan p.id = p.channel_id) :
    ∃ s', reducer s (.receivedPost p) = .ok s' ∧ Tidy s' ∧ Owned chan s' := by
  refine ⟨_, reducer_receivedPost s p, ?_, ?_⟩
  · intro c seq hseq
    change (handleReceivedPost s.posts s.postsByChannel p).postsByChannel c = some seq at hseq
    show seq.Nodup ∧ ∀ k ∈ seq, Function.update s.posts p.id (some p) k ≠ none
    cases hch : s.postsByChannel p.channel_id with
    | none =>
      rw [handleReceivedPost_absent _ _ _ hch] at hseq
      rcases channel_update_cases _ _ _ _ _ hseq with ⟨_, rfl⟩ | ⟨_, hold⟩
      · refine ⟨List.nodup_singleton _, fun k hk => ?_⟩
        rw [List.mem_singleton.mp hk]; simp
      · exact ⟨(hs c seq hold).1, fun k hk => update_some_present _ _ _ _ ((hs c seq hold).2 k hk)⟩
    | some seq0 =>
      by_cases hin : p.id ∈ seq0
      · rw [handleReceivedPost_listed _ _ _ seq0 hch hin] at hseq
        exact ⟨(hs c seq hseq).1, fun k hk => update_some_present _ _ _ _ ((hs c seq hseq).2 k hk)⟩
      · rw [handleReceivedPost_unlisted _ _ _ seq0 hch hin] at hseq
        rcases channel_update_cases _ _ _ _ _ hseq with ⟨_, rfl⟩ | ⟨_, hold⟩
        · refine ⟨List.nodup_cons.mpr ⟨hin, (hs _ seq0 hch).1⟩, fun k hk => ?_⟩
          rcases List.mem_cons.mp hk with h | h
          · rw [h]; simp
          · exact update_some_present _ _ _ _ ((hs _ seq0 hch).2 k h)
        · exact ⟨(hs c seq hold).1,
            fun k hk => update_some_present _ _ _ _ ((hs c seq hold).2 k hk)⟩
  · intro c seq hseq
    change (handleReceivedPost s.posts s.postsByChannel p).postsByChannel c = some seq at hseq
    cases hch : s.postsByChannel p.channel_id with
    | none =>
      rw [handleReceivedPost_absent _ _ _ hch] at hseq
      rcases channel_update_cases _ _ _ _ _ hseq with ⟨rfl, rfl⟩ | ⟨_, hold⟩
      · intro k hk; rw [List.mem_singleton.mp hk]; exact hc
      · exact ho c seq hold
    | some seq0 =>
      by_cases hin : p.id ∈ seq0
      · rw [handleReceivedPost_listed _ _ _ seq0 hch hin] at hseq
        exact ho c seq hseq
      · rw [handleReceivedPost_unlisted _ _ _ seq0 hch hin] at hseq
        rcases channel_update_cases _ _ _ _ _ hseq with ⟨rfl, rfl⟩ | ⟨_, hold⟩
        · intro k hk
          rcases List.mem_cons.mp hk with h | h
          · rw [h]; exact hc
          · exact ho _ seq0 hch k h
        · exact ho c seq hold

theorem step_receivedPosts (chan : String → String) (s : State) (hs : Tidy s)
    (ho : Owned chan s) (data : PostList) (ch : String)
    (hc : ∀ p ∈ data.posts, p.delete_at = 0 → chan p.id = ch) :
    ∃ s', reducer s (.receivedPosts data ch) = .ok s' ∧ Tidy s' ∧ Owned chan s' := by
  have hpres := received_present s data ch (fun seq h => (hs ch seq h).2)
  have hperm := List.perm_insertionSort (newerFirst (received s data ch).1) (received s data ch).2
  obtain ⟨hkeep1, _, hkeep3, _⟩ :=
    foldl_keeps data.posts (s.posts, (s.postsByChannel ch).getD [])
  obtain ⟨_, horig⟩ := foldl_origin data.posts (s.posts, (s.postsByChannel ch).getD [])
  refine ⟨_, reducer_receivedPosts s data ch hpres, ?_, ?_⟩
  · intro c seq hseq
    rcases channel_update_cases _ _ _ _ _ hseq with ⟨_, rfl⟩ | ⟨_, hold⟩
    · refine ⟨hperm.nodup_iff.mpr (hkeep3 (tidy_getD s hs ch).1), fun k hk => ?_⟩
      exact hpres k (hperm.mem_iff.mp hk)
    · exact ⟨(hs c seq hold).1, fun k hk => hkeep1 k ((hs c seq hold).2 k hk)⟩
  · intro c seq hseq
    rcases channel_update_cases _ _ _ _ _ hseq with ⟨rfl, rfl⟩ | ⟨_, hold⟩
    · intro k hk
      rcases horig k (hperm.mem_iff.mp hk) with h | ⟨p, hp, hlive, rfl⟩
      · exact owned_getD chan s ho _ k h
      · exact hc p hp hlive
    · exact ho c seq hold

theorem step_postDeleted (chan : String → String) (s : State) (hs : Tidy s)
    (ho : Owned chan s) (p : Post) :
    ∃ s', reducer s (.postDeleted p) = .ok s' ∧ Tidy s' ∧ Owned chan s' := by
  cases h : s.posts p.id with
  | none => exact ⟨s, reducer_postDeleted_none s p h, hs, ho⟩
  | some stored =>
    refine ⟨_, reducer_postDeleted_some s p stored h, ?_, ho⟩
    intro c seq hseq
    exact ⟨(hs c seq hseq).1, fun k hk => update_some_present _ _ _ _ ((hs c seq hseq).2 k hk)⟩

theorem step_removePost (chan : String → String) (s : State) (hs : Tidy s)
    (ho : Owned chan s) (p : Post) (hc : chan p.id = p.channel_id) :
    ∃ s', reducer s (.removePost p) = .ok s' ∧ Tidy s' ∧ Owned chan s' := by
  cases h : s.posts p.id with
  | none => exact ⟨s, reducer_removePost_none s p h, hs, ho⟩
  | some stored =>
    obtain ⟨hnd, hall⟩ := tidy_getD s hs p.channel_id
    obtain ⟨posts', seq', hrun, hsub, _, hkeep, hout, _⟩ :=
      reducer_removePost_some s p stored h hnd hall
    have hsub' : ∀ k ∈ seq', k ∈ (s.postsByChannel p.channel_id).getD [] :=
      fun k hk => List.mem_of_mem_erase (hsub.subset hk)
    refine ⟨_, hrun, ?_, ?_⟩
    · intro c seq hseq
      rcases channel_update_cases _ _ _ _ _ hseq with ⟨_, rfl⟩ | ⟨hne, hold⟩
      · refine ⟨(hnd.erase _).sublist hsub, fun k hk => ?_⟩
        show posts' k ≠ none
        rw [hkeep k hk]
        exact hall k (hsub' k hk)
      · refine ⟨(hs c seq hold).1, fun k hk => ?_⟩
        show posts' k ≠ none
        have hck : chan k = c := ho c seq hold k hk
        have h1 : k ∉ (s.postsByChannel p.channel_id).getD [] := fun hm =>
          hne (hck.symm.trans (owned_getD chan s ho _ k hm))
        have h2 : k ≠ p.id := fun he => hne (hck.symm.trans (he ▸ hc))
        rw [hout k h1 h2]
        exact (hs c seq hold).2 k hk
    · intro c seq hseq
      rcases channel_update_cases _ _ _ _ _ hseq with ⟨rfl, rfl⟩ | ⟨_, hold⟩
      · exact fun k hk => owned_getD chan s ho _ k (hsub' k hk)
      · exact ho c seq hold

/-- A record that presents identifiers in their channels keeps the store tidy
and owned, and the reducer returns. -/
theorem step_consistent (chan : String → String) (s : State) (hs : Tidy s)
    (ho : Owned chan s) (a : Action) (hc : Consistent chan a) :
    ∃ s', reducer s a = .ok s' ∧ Tidy s' ∧ Owned chan s' := by
  cases a with
  | receivedPost p => exact step_receivedPost chan s hs ho p hc
  | receivedPosts data ch => exact step_receivedPosts chan s hs ho data ch hc
  | postDeleted p => exact step_postDeleted chan s hs ho p
  | removePost p => exact step_removePost chan s hs ho p hc
  | receivedPostSelected i => exact ⟨_, reducer_receivedPostSelected s i, hs, ho⟩
  | logoutSuccess => exact ⟨_, reducer_logoutSuccess s, tidy_empty, owned_empty chan⟩
  | other => exact ⟨_, reducer_other s, hs, ho⟩

theorem run_consistent (chan : String → String) :
    ∀ (as : List Action) (s : State), Tidy s → Owned chan s →
      (∀ a ∈ as, Consistent chan a) →
      ∃ s', run s as = .ok s' ∧ Tidy s' ∧ Owned chan s'
  | [], s, hs, ho, _ => ⟨s, rfl, hs, ho⟩
  | a :: as, s, hs, ho, hc => by
    obtain ⟨s1, h1, hs1, ho1⟩ := step_consistent chan s hs ho a (hc a (List.mem_cons_self _ _))
    obtain ⟨s2, h2, hs2, ho2⟩ :=
      run_consistent chan as s1 hs1 ho1 (fun b hb => hc b (List.mem_cons_of_mem _ hb))
    refine ⟨s2, ?_, hs2, ho2⟩
    simp only [run, h1, h2]

theorem tidy_noDangling (s : State) (h : Tidy s) : NoDangling s :=
  fun c seq hc k hk => (h c seq hc).2 k hk

theorem stamped_sortedDesc (cr : String → Nat) (s : State) (h : Stamped cr s) :
    SortedDesc s := by
  intro c seq hc
  obtain ⟨hpres, hpw⟩ := h.2 c seq hc
  refine hpw.imp_of_mem ?_
  intro a b ha hb hle
  obtain ⟨pa, hpa⟩ := Option.ne_none_iff_exists'.mp (hpres a ha)
  obtain ⟨pb, hpb⟩ := Option.ne_none_iff_exists'.mp (hpres b hb)
  refine ⟨pa, pb, hpa, hpb, ?_⟩
  rw [h.1 a pa hpa, h.1 b pb hpb]
  exact hle

theorem step_stamped (cr : String → Nat) (s : State) (hs : Stamped cr s)
    (data : PostList) (ch : String)
    (hc : ∀ p ∈ data.posts, p.delete_at = 0 → p.create_at = cr p.id) :
    ∃ s', reducer s (.receivedPosts data ch) = .ok s' ∧ Stamped cr s' := by
  have hpres := received_present s data ch (fun seq h => (hs.2 ch seq h).1)
  have hperm := List.perm_insertionSort (newerFirst (received s data ch).1) (received s data ch).2
  obtain ⟨hkeep1, _, _, _⟩ := foldl_keeps data.posts (s.posts, (s.postsByChannel ch).getD [])
  obtain ⟨horig, _⟩ := foldl_origin data.posts (s.posts, (s.postsByChannel ch).getD [])
  have hstamp : ∀ k p, (received s data ch).1 k = some p → p.create_at = cr k := by
    intro k p hp
    rcases horig k p hp with h | ⟨hmem, hlive, rfl⟩
    · exact hs.1 k p h
    · exact hc p hmem hlive
  have hcr : ∀ k ∈ (received s data ch).2, createAtOf (received s data ch).1 k = cr k := by
    intro k hk
    obtain ⟨p, hp⟩ := Option.ne_none_iff_exists'.mp (hpres k hk)
    simp only [createAtOf, hp]
    exact hstamp k p hp
  refine ⟨_, reducer_receivedPosts s data ch hpres, hstamp, ?_⟩
  intro c seq hseq
  rcases channel_update_cases _ _ _ _ _ hseq with ⟨_, rfl⟩ | ⟨_, hold⟩
  · refine ⟨fun k hk => hpres k (hperm.mem_iff.mp hk), ?_⟩
    have hsorted := List.sorted_insertionSort (newerFirst (received s data ch).1)
      (received s data ch).2
    refine List.Pairwise.imp_of_mem ?_ hsorted
    intro a b ha hb hab
    have hab' : createAtOf (received s data ch).1 b ≤ createAtOf (received s data ch).1 a := hab
    rwa [hcr a (hperm.mem_iff.mp ha), hcr b (hperm.mem_iff.mp hb)] at hab'
  · exact ⟨fun k hk => hkeep1 k ((hs.2 c seq hold).1 k hk), (hs.2 c seq hold).2⟩

theorem run_stamped (cr : String → Nat) :
    ∀ (as : List Action) (s : State), Stamped cr s → (∀ a ∈ as, StampedBatch cr a) →
      ∃ s', run s as = .ok s' ∧ Stamped cr s'
  | [], s, hs, _ => ⟨s, rfl, hs⟩
  | a :: as, s, hs, hc => by
    have ha := hc a (List.mem_cons_self _ _)
    cases a with
    | receivedPosts data ch =>
      obtain ⟨s1, h1, hs1⟩ := step_stamped cr s hs data ch ha
      obtain ⟨s2, h2, hs2⟩ :=
        run_stamped cr as s1 hs1 (fun b hb => hc b (List.mem_cons_of_mem _ hb))
      refine ⟨s2, ?_, hs2⟩
      simp only [run, h1, h2]
    | receivedPost _ => exact absurd ha id
    | postDeleted _ => exact absurd ha id
    | removePost _ => exact absurd ha id
    | receivedPostSelected _ => exact absurd ha id
    | logoutSuccess => exact absurd ha id
    | other => exact absurd ha id

theorem stamped_empty (cr : String → Nat) : Stamped cr State.empty :=
  ⟨fun k p h => (by cases h), fun c seq h => (by cases h)⟩

/-- Applying a batch to the state it produced changes nothing. -/
theorem reducer_receivedPosts_twice (s : State) (data : PostList) (ch : String)
    (h : ∀ seq, s.postsByChannel ch = some seq → ∀ k ∈ seq, s.posts k ≠ none) :
    ∃ s1, reducer s (.receivedPosts data ch) = .ok s1 ∧
      reducer s1 (.receivedPosts data ch) = .ok s1 ∧
      s1.posts = (received s data ch).1 ∧
      s1.postsByChannel ch =
        some ((received s data ch).2.insertionSort (newerFirst (received s data ch).1)) := by
  have hpres := received_present s data ch h
  have hperm := List.perm_insertionSort (newerFirst (received s data ch).1) (received s data ch).2
  have hsorted := List.sorted_insertionSort (newerFirst (received s data ch).1)
      (received s data ch).2
  refine ⟨_, reducer_receivedPosts s data ch hpres, ?_, rfl, by simp⟩
  generalize hs1 : ({ s with
        posts := (received s data ch).1
        postsByChannel := Function.update s.postsByChannel ch
          (some ((received s data ch).2.insertionSort
            (newerFirst (received s data ch).1))) } : State) = s1
  have hposts : s1.posts = (received s data ch).1 := by rw [← hs1]
  have hchan : s1.postsByChannel = Function.update s.postsByChannel ch
      (some ((received s data ch).2.insertionSort (newerFirst (received s data ch).1))) := by
    rw [← hs1]
  have hrec : received s1 data ch =
      ((received s data ch).1,
        (received s data ch).2.insertionSort (newerFirst (received s data ch).1)) := by
    have hstart : received s1 data ch = data.posts.foldl receiveStep
        ((received s data ch).1,
          (received s data ch).2.insertionSort (newerFirst (received s data ch).1)) := by
      simp [received, hposts, hchan]
    rw [hstart]
    apply foldl_fixed
    intro n hn hlive
    have hset := foldl_settles data.posts (s.posts, (s.postsByChannel ch).getD []) n hn hlive
    exact ⟨hset.1, hperm.mem_iff.mpr hset.2⟩
  have hpres1 : ∀ k ∈ (received s1 data ch).2, (received s1 data ch).1 k ≠ none := by
    rw [hrec]
    exact fun k hk => hpres k (hperm.mem_iff.mp hk)
  rw [reducer_receivedPosts s1 data ch hpres1, hrec]
  simp only [List.Sorted.insertionSort_eq hsorted]
  rw [← hs1]
  simp

theorem handlePosts_same_sound (posts : PostMap) (pbc : ChannelMap) (a : Action)
    (slice : PostsSlice) (h : handlePosts posts pbc a = .ok slice) :
    (slice.samePosts = true → slice.posts = posts) ∧
    (slice.samePostsByChannel = true → slice.postsByChannel = pbc) := by
  cases a with
  | receivedPost p =>
    simp only [handlePosts, Except.ok.injEq] at h
    subst h
    cases hc : pbc p.channel_id with
    | none => rw [handleReceivedPost_absent _ _ _ hc]; simp
    | some seq =>
      by_cases hin : p.id ∈ seq
      · rw [handleReceivedPost_listed _ _ _ seq hc hin]; simp
      · rw [handleReceivedPost_unlisted _ _ _ seq hc hin]; simp
  | receivedPosts data ch =>
    simp only [handlePosts, handleReceivedPosts] at h
    split at h
    · cases h
    · simp only [Except.ok.injEq] at h
      subst h
      simp
  | postDeleted p =>
    simp only [handlePosts, Except.ok.injEq] at h
    subst h
    cases hp : posts p.id with
    | none => simp [handlePostDeleted, hp]
    | some stored => simp [handlePostDeleted, hp]
  | removePost p =>
    cases hp : posts p.id with
    | none =>
      simp only [handlePosts, handleRemovePost, hp, Except.ok.injEq] at h
      subst h
      simp
    | some stored =>
      simp only [handlePosts, handleRemovePost, hp] at h
      split at h
      · cases h
      · simp only [Except.ok.injEq] at h
        subst h
        simp
  | receivedPostSelected i =>
    simp only [handlePosts, Except.ok.injEq] at h
    subst h
    simp
  | logoutSuccess =>
    simp only [handlePosts, Except.ok.injEq] at h
    subst h
    simp
  | other =>
    simp only [handlePosts, Except.ok.injEq] at h
    subst h
    simp

theorem noDangling_threadStore : NoDangling threadStore := by
  intro c seq h k hk
  by_cases hc : c = "X"
  · subst hc
    have hseq : seq = ["A", "B", "C"] := by
      have : threadStore.postsByChannel "X" = some ["A", "B", "C"] := rfl
      rw [this] at h
      exact (Option.some.inj h).symm
    subst hseq
    simp only [List.mem_cons, List.mem_singleton, List.not_mem_nil, or_false] at hk
    rcases hk with rfl | rfl | rfl <;> decide
  · simp [threadStore, hc] at h

/-! ### Further lemmas -/

/-! ### Results of a batch, whenever it returns -/

theorem insertBy_perm (cmp : String → String → Except JsError Int) (a : String) :
    ∀ (l r : List String), insertBy cmp a l = .ok r → r.Perm (a :: l)
  | [], r, h => by
    simp only [insertBy, Except.ok.injEq] at h
    subst h
    exact List.Perm.refl _
  | b :: l, r, h => by
    simp only [insertBy] at h
    cases hc : cmp a b with
    | error e => rw [hc] at h; cases h
    | ok c =>
      rw [hc] at h
      by_cases h0 : c ≤ 0
      · simp only [h0, if_true, Except.ok.injEq] at h
        subst h
        exact List.Perm.refl _
      · simp only [h0, if_false] at h
        cases hi : insertBy cmp a l with
        | error e => rw [hi] at h; cases h
        | ok r' =>
          rw [hi] at h
          simp only [Except.ok.injEq] at h
          subst h
          exact ((insertBy_perm cmp a l r' hi).cons b).trans (List.Perm.swap a b l)

theorem sortBy_perm (cmp : String → String → Except JsError Int) :
    ∀ (l r : List String), sortBy cmp l = .ok r → r.Perm l
  | [], r, h => by
    simp only [sortBy, Except.ok.injEq] at h
    subst h
    exact List.Perm.refl _
  | a :: l, r, h => by
    simp only [sortBy] at h
    cases hs : sortBy cmp l with
    | error e => rw [hs] at h; cases h
    | ok s =>
      rw [hs] at h
      exact (insertBy_perm cmp a s r h).trans ((sortBy_perm cmp l s hs).cons a)

/-- What a batch that returns has produced. -/
theorem reducer_receivedPosts_inv (s s' : State) (data : PostList) (ch : String)
    (h : reducer s (.receivedPosts data ch) = .ok s') :
    ∃ sorted, sortBy (compareCreateAt (received s data ch).1) (received s data ch).2 = .ok sorted ∧
      sorted.Perm (received s data ch).2 ∧
      s' = { s with
        posts := (received s data ch).1
        postsByChannel := Function.update s.postsByChannel ch (some sorted) } := by
  cases hs : sortBy (compareCreateAt (received s data ch).1) (received s data ch).2 with
  | error e =>
    unfold received at hs
    simp [reducer_unfold, handlePosts, handleReceivedPosts, hs] at h
  | ok sorted =>
    refine ⟨sorted, rfl, sortBy_perm _ _ _ hs, ?_⟩
    unfold received at hs
    simp [reducer_unfold, handlePosts, handleReceivedPosts, hs, unchanged, selectedPostId,
      currentFocusedPostId] at h
    rw [← h]
    rfl

theorem keepFirst_filter (q : String → Bool) :
    ∀ l : List String, keepFirst (l.filter q) = (keepFirst l).filter q
  | [] => rfl
  | a :: l => by
    have ih := keepFirst_filter q l
    by_cases hq : q a = true
    · simp only [List.filter_cons, hq, if_true, keepFirst, ih, List.filter_filter]
      congr 1
      apply List.filter_congr
      intro x _
      exact Bool.and_comm _ _
    · simp only [List.filter_cons, hq, keepFirst, List.filter_filter]
      simp only [Bool.false_eq_true, if_false]
      rw [ih]
      apply List.filter_congr
      intro x _
      by_cases hx : x = a
      · subst hx; simp [hq]
      · simp [hx]

theorem keepFirst_of_nodup : ∀ l : List String, l.Nodup → keepFirst l = l
  | [], _ => rfl
  | a :: l, h => by
    obtain ⟨hnot, hnd⟩ := List.nodup_cons.mp h
    rw [keepFirst, keepFirst_of_nodup l hnd]
    congr 1
    apply List.filter_eq_self.mpr
    intro x hx
    have hne : x ≠ a := fun he => hnot (he ▸ hx)
    simpa using hne

theorem incomingIds_nodup (old : List String) (batch : List Post)
    (h : (batch.map Post.id).Nodup) : (incomingIds old batch).Nodup := by
  unfold incomingIds
  apply List.Nodup.filter
  exact (List.Nodup.sublist ((List.filter_sublist batch).map Post.id) h)

theorem mem_incomingIds (old : List String) (batch : List Post) (k : String) :
    k ∈ incomingIds old batch ↔ (∃ p ∈ batch, p.delete_at = 0 ∧ p.id = k) ∧ k ∉ old := by
  simp only [incomingIds, List.mem_filter, List.mem_map, decide_eq_true_eq]
  constructor
  · rintro ⟨⟨p, ⟨hp, hlive⟩, rfl⟩, hk⟩
    exact ⟨⟨p, hp, hlive, rfl⟩, hk⟩
  · rintro ⟨⟨p, hp, hlive, rfl⟩, hk⟩
    exact ⟨⟨p, ⟨hp, hlive⟩, rfl⟩, hk⟩

theorem mem_keepFirst (k : String) : ∀ l : List String, k ∈ keepFirst l ↔ k ∈ l
  | [] => Iff.rfl
  | a :: l => by
    have ih := mem_keepFirst k l
    simp only [keepFirst, List.mem_cons, List.mem_filter, decide_eq_true_eq, ih]
    constructor
    · rintro (h | ⟨h, _⟩)
      · exact Or.inl h
      · exact Or.inr h
    · rintro (h | h)
      · exact Or.inl h
      · by_cases hk : k = a
        · exact Or.inl hk
        · exact Or.inr ⟨h, hk⟩

/-- The list the loop of `handleReceivedPosts` ends with: the list it started
with, followed by the incoming identifiers that were not in it, each once. -/
theorem foldl_list_eq (batch : List Post) :
    ∀ acc : PostMap × List String,
      (batch.foldl receiveStep acc).2 = acc.2 ++ keepFirst (incomingIds acc.2 batch) := by
  induction batch with
  | nil => intro acc; simp [incomingIds, keepFirst]
  | cons m rest ih =>
    intro acc
    rw [List.foldl_cons, ih]
    by_cases hm : m.delete_at = 0
    · rw [receiveStep_live acc m hm]
      by_cases hin : m.id ∈ acc.2
      · simp only [if_pos hin]
        congr 2
        simp [incomingIds, hm, hin]
      · simp only [if_neg hin]
        have h1 : incomingIds (acc.2 ++ [m.id]) rest =
            (incomingIds acc.2 rest).filter (fun k => decide (k ≠ m.id)) := by
          simp only [incomingIds, List.filter_filter]
          apply List.filter_congr
          intro x _
          simp [not_or, and_comm]
        have h2 : incomingIds acc.2 (m :: rest) = m.id :: incomingIds acc.2 rest := by
          simp [incomingIds, hm, hin]
        rw [h1, h2, keepFirst_filter, keepFirst, List.append_assoc]
        rfl
    · rw [receiveStep_deleted acc m hm]
      congr 2
      simp [incomingIds, hm]

/-- A key that no non-deleted incoming post carries keeps its entry. -/
theorem foldl_untouched (batch : List Post) (k : String) :
    ∀ acc : PostMap × List String, (∀ p ∈ batch, p.delete_at = 0 → p.id ≠ k) →
      (batch.foldl receiveStep acc).1 k = acc.1 k := by
  induction batch with
  | nil => intro acc _; rfl
  | cons m rest ih =>
    intro acc h
    rw [List.foldl_cons, ih _ (fun p hp => h p (List.mem_cons_of_mem _ hp))]
    by_cases hm : m.delete_at = 0
    · rw [receiveStep_live acc m hm]
      exact mergePost_of_ne acc.1 m k (fun he => h m (List.mem_cons_self _ _) hm he.symm)
    · rw [receiveStep_deleted acc m hm]

theorem mergePost_congr (p q : PostMap) (n : Post) (h : p n.id = q n.id) :
    mergePost p n n.id = mergePost q n n.id := by
  cases hq : q n.id with
  | none =>
    rw [hq] at h
    simp [mergePost, h, hq]
  | some old =>
    rw [hq] at h
    simp only [mergePost, h, hq]
    split <;> simp [h, hq]

/-- With pairwise distinct identifiers each non-deleted incoming post meets the
record that was stored before the batch. -/
theorem foldl_merge_at (batch : List Post) (n : Post) :
    ∀ acc : PostMap × List String, (batch.map Post.id).Nodup → n ∈ batch →
      n.delete_at = 0 →
      (batch.foldl receiveStep acc).1 n.id = mergePost acc.1 n n.id := by
  induction batch with
  | nil => intro acc _ hn; cases hn
  | cons m rest ih =>
    intro acc hnd hn hlive
    rw [List.map_cons, List.nodup_cons] at hnd
    obtain ⟨hnot, hnd'⟩ := hnd
    rw [List.foldl_cons]
    rcases List.mem_cons.mp hn with h | h
    · subst h
      rw [foldl_untouched rest n.id _ (fun p hp _ he => hnot (he ▸ List.mem_map_of_mem _ hp)),
        receiveStep_live acc n hlive]
    · have hne : n.id ≠ m.id := fun he => hnot (he ▸ List.mem_map_of_mem _ h)
      rw [ih _ hnd' h hlive]
      apply mergePost_congr
      by_cases hm : m.delete_at = 0
      · rw [receiveStep_live acc m hm]
        exact mergePost_of_ne acc.1 m n.id hne
      · rw [receiveStep_deleted acc m hm]

theorem mergePost_self_iff (posts : PostMap) (n : Post) :
    (mergePost posts n n.id = some n ↔
      posts n.id = none ∨ ∃ old, posts n.id = some old ∧ (old.update_at > n.update_at ∨ old = n)) ∧
    (mergePost posts n n.id ≠ some n → mergePost posts n n.id = posts n.id) := by
  cases hp : posts n.id with
  | none => simp [mergePost, hp]
  | some old =>
    by_cases hlt : old.update_at > n.update_at
    · simp [mergePost, hp, hlt]
    · simp only [mergePost, hp, hlt, if_false]
      refine ⟨⟨fun h => Or.inr ⟨old, rfl, Or.inr (Option.some.inj h)⟩, ?_⟩, fun _ => trivial⟩
      rintro (h | ⟨old', h1, h2 | h2⟩)
      · cases h
      · cases h1; exact absurd h2 hlt
      · cases h1; rw [h2]

theorem nodup_threadStore : NoDuplicates threadStore := by
  intro c seq h
  by_cases hc : c = "X"
  · subst hc
    have : threadStore.postsByChannel "X" = some ["A", "B", "C"] := rfl
    rw [this] at h
    rw [← Option.some.inj h]
    decide
  · simp [threadStore, hc] at h

theorem removeComments_sublist (postId : String) :
    ∀ (fuel i : Nat) (nextPosts : PostMap) (seq : List String) (r : PostMap × List String),
      removeComments postId fuel i nextPosts seq = .ok r → r.2.Sublist seq := by
  intro fuel
  induction fuel with
  | zero =>
    intro i nextPosts seq r h
    rw [removeComments] at h
    cases hget : seq[i]? with
    | none =>
      rw [hget] at h
      simp only [Except.ok.injEq] at h
      subst h
      exact List.Sublist.refl _
    | some id => rw [hget] at h; cases h
  | succ fuel ih =>
    intro i nextPosts seq r h
    rw [removeComments] at h
    cases hget : seq[i]? with
    | none =>
      rw [hget] at h
      simp only [Except.ok.injEq] at h
      subst h
      exact List.Sublist.refl _
    | some id =>
      rw [hget] at h
      cases hpost : nextPosts id with
      | none => simp only [hpost] at h; cases h
      | some comment =>
        simp only [hpost] at h
        by_cases hroot : comment.root_id = postId
        · simp only [hroot, if_true] at h
          exact (ih _ _ _ r h).trans (List.eraseIdx_sublist _ _)
        · simp only [hroot, if_false] at h
          exact ih _ _ _ r h

/-- What a removal that returns has produced. -/
theorem reducer_removePost_inv (s s' : State) (post stored : Post)
    (hp : s.posts post.id = some stored) (h : reducer s (.removePost post) = .ok s') :
    ∃ posts' seq', seq'.Sublist ((s.postsByChannel post.channel_id).getD []) ∧
      s' = { s with
        posts := posts'
        postsByChannel := Function.update s.postsByChannel post.channel_id (some seq') } := by
  cases hr : removeComments post.id
      (((s.postsByChannel post.channel_id).getD []).erase post.id).length 0
      (Function.update s.posts post.id none)
      (((s.postsByChannel post.channel_id).getD []).erase post.id) with
  | error e => simp [reducer_unfold, handlePosts, handleRemovePost, hp, hr] at h
  | ok r =>
    refine ⟨r.1, r.2, (removeComments_sublist _ _ _ _ _ r hr).trans (List.erase_sublist _ _), ?_⟩
    simp [reducer_unfold, handlePosts, handleRemovePost, hp, hr, unchanged, selectedPostId,
      currentFocusedPostId] at h
    rw [← h]

theorem step_noDuplicates (s s' : State) (a : Action) (hs : NoDuplicates s)
    (h : reducer s a = .ok s') : NoDuplicates s' := by
  cases a with
  | receivedPost p =>
    rw [reducer_receivedPost] at h
    simp only [Except.ok.injEq] at h
    subst h
    intro c seq hseq
    change (handleReceivedPost s.posts s.postsByChannel p).postsByChannel c = some seq at hseq
    cases hch : s.postsByChannel p.channel_id with
    | none =>
      rw [handleReceivedPost_absent _ _ _ hch] at hseq
      rcases channel_update_cases _ _ _ _ _ hseq with ⟨_, rfl⟩ | ⟨_, hold⟩
      · exact List.nodup_singleton _
      · exact hs c seq hold
    | some seq0 =>
      by_cases hin : p.id ∈ seq0
      · rw [handleReceivedPost_listed _ _ _ seq0 hch hin] at hseq
        exact hs c seq hseq
      · rw [handleReceivedPost_unlisted _ _ _ seq0 hch hin] at hseq
        rcases channel_update_cases _ _ _ _ _ hseq with ⟨_, rfl⟩ | ⟨_, hold⟩
        · exact List.nodup_cons.mpr ⟨hin, hs _ seq0 hch⟩
        · exact hs c seq hold
  | receivedPosts data ch =>
    obtain ⟨sorted, _, hperm, rfl⟩ := reducer_receivedPosts_inv s s' data ch h
    intro c seq hseq
    rcases channel_update_cases _ _ _ _ _ hseq with ⟨_, rfl⟩ | ⟨_, hold⟩
    · refine hperm.nodup_iff.mpr ((foldl_keeps data.posts _).2.2.1 ?_)
      cases hc : s.postsByChannel ch with
      | none => simp
      | some seq0 => simpa using hs ch seq0 hc
    · exact hs c seq hold
  | postDeleted p =>
    cases hp : s.posts p.id with
    | none =>
      rw [reducer_postDeleted_none s p hp] at h
      simp only [Except.ok.injEq] at h
      subst h; exact hs
    | some stored =>
      rw [reducer_postDeleted_some s p stored hp] at h
      simp only [Except.ok.injEq] at h
      subst h; exact hs
  | removePost p =>
    cases hp : s.posts p.id with
    | none =>
      rw [reducer_removePost_none s p hp] at h
      simp only [Except.ok.injEq] at h
      subst h; exact hs
    | some stored =>
      obtain ⟨posts', seq', hsub, rfl⟩ := reducer_removePost_inv s s' p stored hp h
      intro c seq hseq
      rcases channel_update_cases _ _ _ _ _ hseq with ⟨_, rfl⟩ | ⟨_, hold⟩
      · refine List.Nodup.sublist hsub ?_
        cases hc : s.postsByChannel p.channel_id with
        | none => simp
        | some seq0 => simpa using hs _ seq0 hc
      · exact hs c seq hold
  | receivedPostSelected i =>
    rw [reducer_receivedPostSelected] at h
    simp only [Except.ok.injEq] at h
    subst h; exact hs
  | logoutSuccess =>
    rw [reducer_logoutSuccess] at h
    simp only [Except.ok.injEq] at h
    subst h
    intro c seq hseq; cases hseq
  | other =>
    rw [reducer_other] at h
    simp only [Except.ok.injEq] at h
    subst h; exact hs

theorem run_noDuplicates :
    ∀ (as : List Action) (s s' : State), NoDuplicates s → run s as = .ok s' → NoDuplicates s'
  | [], s, s', hs, h => by
    simp only [run, Except.ok.injEq] at h
    subst h; exact hs
  | a :: as, s, s', hs, h => by
    simp only [run] at h
    cases hr : reducer s a with
    | error e => rw [hr] at h; cases h
    | ok s1 =>
      rw [hr] at h
      exact run_noDuplicates as s1 s' (step_noDuplicates s s1 a hs hr) h

theorem noDangling_in_threadStore (ch : String) :
    ∀ seq, threadStore.postsByChannel ch = some seq → ∀ k ∈ seq, threadStore.posts k ≠ none :=
  fun seq h => noDangling_threadStore ch seq h

theorem collect_eq (users : UsersState) (posts : List Post) :
    ∀ acc : List String × List String,
      posts.foldl (collectAuthor users) acc =
        (acc.1 ++ (posts.map Post.user_id).filter (fun u => !users.profiles u),
         acc.2 ++ (posts.map Post.user_id).filter (fun u => !users.statuses u)) := by
  induction posts with
  | nil => intro acc; simp
  | cons p rest ih =>
    intro acc
    rw [List.foldl_cons, ih]
    simp only [collectAuthor, List.map_cons, List.filter_cons]
    cases hp : users.profiles p.user_id <;> cases hs : users.statuses p.user_id <;> simp

theorem failure_records_ignored (s : State) (op : Operation) (e : ClientError) :
    reduceDispatched s
      [.single (.request op), .batch [.failure op e, getLogErrorAction e]] = .ok s := by
  simp [reduceDispatched, Dispatched.records, Record.toAction, getLogErrorAction, run,
    reducer_other]

/-! ### Results of a removal, whenever it returns -/

/-- What the cascade loop has done when it ends, on any sequence: entries are
only deleted, and what is deleted from the map or dropped from the sequence is
a post whose `root_id` is the removed identifier. -/
theorem removeComments_effect (postId : String) :
    ∀ (fuel i : Nat) (nextPosts : PostMap) (seq : List String) (r : PostMap × List String),
      removeComments postId fuel i nextPosts seq = .ok r →
      (∀ k p, r.1 k = some p → nextPosts k = some p) ∧
      (∀ k, nextPosts k ≠ none → r.1 k = none →
        ∃ p, nextPosts k = some p ∧ p.root_id = postId) ∧
      (∀ k, k ∈ seq → k ∉ r.2 → ∃ p, nextPosts k = some p ∧ p.root_id = postId) := by
  intro fuel
  induction fuel with
  | zero =>
    intro i nextPosts seq r h
    rw [removeComments] at h
    cases hget : seq[i]? with
    | none =>
      rw [hget] at h
      simp only [Except.ok.injEq] at h
      subst h
      exact ⟨fun _ _ hk => hk, fun k h1 h2 => absurd h2 h1, fun k h1 h2 => absurd h1 h2⟩
    | some id => rw [hget] at h; cases h
  | succ fuel ih =>
    intro i nextPosts seq r h
    rw [removeComments] at h
    cases hget : seq[i]? with
    | none =>
      rw [hget] at h
      simp only [Except.ok.injEq] at h
      subst h
      exact ⟨fun _ _ hk => hk, fun k h1 h2 => absurd h2 h1, fun k h1 h2 => absurd h1 h2⟩
    | some id =>
      rw [hget] at h
      cases hpost : nextPosts id with
      | none => simp only [hpost] at h; cases h
      | some comment =>
        simp only [hpost] at h
        by_cases hroot : comment.root_id = postId
        · simp only [hroot, if_true, List.eraseIdx_indexOf_eq_erase] at h
          obtain ⟨h1, h2, h3⟩ := ih _ _ _ r h
          have hup : ∀ k p, Function.update nextPosts id none k = some p →
              k ≠ id ∧ nextPosts k = some p := by
            intro k p hk
            by_cases hki : k = id
            · subst hki; rw [Function.update_same] at hk; cases hk
            · rw [Function.update_noteq hki] at hk; exact ⟨hki, hk⟩
          refine ⟨fun k p hk => (hup k p (h1 k p hk)).2, ?_, ?_⟩
          · intro k hk hnone
            by_cases hki : k = id
            · subst hki; exact ⟨comment, hpost, hroot⟩
            · have hk' : Function.update nextPosts id none k ≠ none := by
                rwa [Function.update_noteq hki]
              obtain ⟨p, hp, hr⟩ := h2 k hk' hnone
              exact ⟨p, (hup k p hp).2, hr⟩
          · intro k hk hnot
            by_cases hki : k = id
            · subst hki; exact ⟨comment, hpost, hroot⟩
            · obtain ⟨p, hp, hr⟩ := h3 k ((List.mem_erase_of_ne hki).mpr hk) hnot
              exact ⟨p, (hup k p hp).2, hr⟩
        · simp only [hroot, if_false] at h
          exact ih _ _ _ r h

/-- What a removal of a stored post that returns has produced. -/
theorem reducer_removePost_effect (s s' : State) (post stored : Post)
    (hp : s.posts post.id = some stored) (h : reducer s (.removePost post) = .ok s') :
    ∃ posts' seq',
      s' = { s with
        posts := posts'
        postsByChannel := Function.update s.postsByChannel post.channel_id (some seq') } ∧
      seq'.Sublist ((s.postsByChannel post.channel_id).getD []) ∧
      (∀ k, k ∈ (s.postsByChannel post.channel_id).getD [] → k ∉ seq' →
        k = post.id ∨ ∃ p, s.posts k = some p ∧ p.root_id = post.id) ∧
      (∀ k, s.posts k ≠ none → posts' k = none →
        k = post.id ∨ ∃ p, s.posts k = some p ∧ p.root_id = post.id) := by
  cases hr : removeComments post.id
      (((s.postsByChannel post.channel_id).getD []).erase post.id).length 0
      (Function.update s.posts post.id none)
      (((s.postsByChannel post.channel_id).getD []).erase post.id) with
  | error e => simp [reducer_unfold, handlePosts, handleRemovePost, hp, hr] at h
  | ok r =>
    obtain ⟨_, h2, h3⟩ := removeComments_effect _ _ _ _ _ r hr
    refine ⟨r.1, r.2, ?_, (removeComments_sublist _ _ _ _ _ r hr).trans (List.erase_sublist _ _),
      ?_, ?_⟩
    · simp [reducer_unfold, handlePosts, handleRemovePost, hp, hr, unchanged, selectedPostId,
        currentFocusedPostId] at h
      rw [← h]
    · intro k hk hnot
      by_cases hki : k = post.id
      · exact Or.inl hki
      · obtain ⟨p, hp', hroot⟩ := h3 k ((List.mem_erase_of_ne hki).mpr hk) hnot
        rw [Function.update_noteq hki] at hp'
        exact Or.inr ⟨p, hp', hroot⟩
    · intro k hk hnone
      by_cases hki : k = post.id
      · exact Or.inl hki
      · have hk' : Function.update s.posts post.id none k ≠ none := by
          rwa [Function.update_noteq hki]
        obtain ⟨p, hp', hroot⟩ := h2 k hk' hnone
        rw [Function.update_noteq hki] at hp'
        exact Or.inr ⟨p, hp', hroot⟩

/-- The two identifiers of the state the reducer returns are what `selectedPostId`
and `currentFocusedPostId` return. -/
theorem reducer_identifiers (s s' : State) (a : Action) (h : reducer s a = .ok s') :
    s'.selectedPostId = selectedPostId s.selectedPostId a ∧
    s'.currentFocusedPostId = currentFocusedPostId s.currentFocusedPostId a := by
  rw [reducer_unfold] at h
  cases hh : handlePosts s.posts s.postsByChannel a with
  | error e => rw [hh] at h; cases h
  | ok slice =>
    rw [hh] at h
    simp only at h
    split at h
    · rename_i hu
      simp only [Except.ok.injEq] at h
      subst h
      simp only [unchanged, Bool.and_eq_true, decide_eq_true_eq] at hu
      exact ⟨hu.1.2, hu.2⟩
    · simp only [Except.ok.injEq] at h
      subst h
      exact ⟨rfl, rfl⟩

theorem run_focused :
    ∀ (as : List Action) (s s' : State), s.currentFocusedPostId = "" → run s as = .ok s' →
      s'.currentFocusedPostId = ""
  | [], s, s', hs, h => by
    simp only [run, Except.ok.injEq] at h
    subst h; exact hs
  | a :: as, s, s', hs, h => by
    simp only [run] at h
    cases hr : reducer s a with
    | error e => rw [hr] at h; cases h
    | ok s1 =>
      rw [hr] at h
      refine run_focused as s1 s' ?_ h
      rw [(reducer_identifiers s s1 a hr).2, hs]
      cases a <;> rfl

/-! ### The object the reducer returns -/

/-- The reducer returns the object it was given only when the reference test
passes: both maps are the objects passed in and both identifiers are equal. -/
theorem reducerReturn_isInput (s : State) (a : Action) (returned : Returned)
    (h : reducerReturn s a = .ok returned) (hin : returned.isInput = true) :
    returned.state = s ∧
    ∃ slice, handlePosts s.posts s.postsByChannel a = .ok slice ∧
      slice.samePosts = true ∧ slice.samePostsByChannel = true ∧
      selectedPostId s.selectedPostId a = s.selectedPostId ∧
      currentFocusedPostId s.currentFocusedPostId a = s.currentFocusedPostId := by
  unfold reducerReturn at h
  cases hh : handlePosts s.posts s.postsByChannel a with
  | error e => rw [hh] at h; cases h
  | ok slice =>
    rw [hh] at h
    by_cases hu : unchanged s slice (selectedPostId s.selectedPostId a)
        (currentFocusedPostId s.currentFocusedPostId a) = true
    · simp only [hu, if_true, Except.ok.injEq] at h
      subst h
      simp only [unchanged, Bool.and_eq_true, decide_eq_true_eq] at hu
      exact ⟨rfl, slice, rfl, hu.1.1.1, hu.1.1.2, hu.1.2.symm, hu.2.symm⟩
    · simp only [hu, Bool.false_eq_true, if_false, Except.ok.injEq] at h
      subst h
      cases hin

/-- A state equal in value need not be the object given: on the empty store the
session-terminated record returns the empty store again, freshly built. -/
theorem logout_returns_fresh_object :
    reducerReturn State.empty .logoutSuccess = .ok { state := State.empty, isInput := false } :=
  rfl

/-! ## The claims -/

/-- Claim C1 (cascading removal), evaluated where it fails: in the thread store
the sequence of `X` is `A, B, C` and the stored `B` and `C` have `root_id = A`;
after the post-removed record for `A` the comment `C`, which follows `B`
directly, is still listed and still stored. -/
theorem cascade_skips_adjacent_comment :
    threadStore.postsByChannel "X" = some ["A", "B", "C"] ∧
    (threadStore.posts "B").map Post.root_id = some "A" ∧
    (threadStore.posts "C").map Post.root_id = some "A" ∧
    ∃ s', reducer threadStore (.removePost (mkPost "A" "X" "" 30 30)) = .ok s' ∧
      s'.postsByChannel "X" = some ["C"] ∧
      s'.posts "C" = some (mkPost "C" "X" "A" 10 10) ∧
      s'.posts "A" = none ∧ s'.posts "B" = none :=
  ⟨rfl, rfl, rfl, _, rfl, by decide, by decide, by decide, by decide⟩

/-- Claim C2 as stated fails: after two posts are received in channel `X` and
one of them is removed by a record naming channel `Y`, the sequence of `X`
lists an identifier that is no key of `posts`. -/
theorem dangling_after_stray_removal :
    ∃ s, run State.empty strayRemoval = .ok s ∧ ¬ NoDangling s :=
  ⟨_, rfl, fun h => h "X" ["D", "A"] (by decide) "A" (by simp) (by decide)⟩

/-- Claim C2, amended: when every record of a run presents each identifier in
one and the same channel (the channel `chan` assigns to it), the run from the
empty store reaches a state, and that state has no dangling reference. -/
theorem no_dangling_of_consistent (chan : String → String) (as : List Action)
    (h : ∀ a ∈ as, Consistent chan a) :
    ∃ s, run State.empty as = .ok s ∧ NoDangling s := by
  obtain ⟨s, hrun, hs, _⟩ := run_consistent chan as State.empty tidy_empty (owned_empty chan) h
  exact ⟨s, hrun, tidy_noDangling s hs⟩

theorem no_dangling_of_consistent_witness :
    (∀ a ∈ tidyRun, Consistent (fun _ => "X") a) ∧
      ∃ s, run State.empty tidyRun = .ok s ∧ NoDangling s :=
  ⟨by simp [tidyRun, Consistent, mkPost],
   no_dangling_of_consistent (fun _ => "X") tidyRun (by simp [tidyRun, Consistent, mkPost])⟩

/-- Claim C3 as stated fails: in the state reached by the stray removal the
sequence of `X` lists the removed post, and both a post-removed record for the
other post of `X` and a batch keyed to `X` raise a `TypeError`. -/
theorem reducer_raises_after_stray_removal :
    ∃ s, run State.empty strayRemoval = .ok s ∧
      reducer s (.removePost (mkPost "D" "X" "" 20 20)) = .error .typeError ∧
      reducer s (.receivedPosts ⟨[], []⟩ "X") = .error .typeError :=
  ⟨_, rfl, rfl, rfl⟩

/-- Claim C3, amended: when every record of a run presents each identifier in
one and the same channel, the run from the empty store reaches a state, and
in that state the reducer returns a next state for every record. -/
theorem reducer_total_of_consistent (chan : String → String) (as : List Action)
    (h : ∀ a ∈ as, Consistent chan a) :
    ∃ s, run State.empty as = .ok s ∧ ∀ a, ∃ s', reducer s a = .ok s' := by
  obtain ⟨s, hrun, hs, _⟩ := run_consistent chan as State.empty tidy_empty (owned_empty chan) h
  exact ⟨s, hrun, reducer_ok_of_tidy s hs⟩

theorem reducer_total_of_consistent_witness :
    (∀ a ∈ tidyRun, Consistent (fun _ => "X") a) ∧
      ∃ s, run State.empty tidyRun = .ok s ∧ ∀ a, ∃ s', reducer s a = .ok s' :=
  ⟨by simp [tidyRun, Consistent, mkPost],
   reducer_total_of_consistent (fun _ => "X") tidyRun (by simp [tidyRun, Consistent, mkPost])⟩

/-- Claim C4 as stated fails: after a batch keyed to `X` and a batch keyed to
`Y` that carries `p1` with a later creation time, the sequence of `X` is
`p2, p1` while the stored `p1` is newer than the stored `p2`. -/
theorem unsorted_after_restamped_batches :
    (∀ a ∈ restampedBatches, IsBatch a) ∧
      ∃ s, run State.empty restampedBatches = .ok s ∧ ¬ SortedDesc s := by
  refine ⟨by simp [restampedBatches, IsBatch], _, rfl, ?_⟩
  intro h
  have hpw := h "X" ["p2", "p1"] (by decide)
  obtain ⟨pa, pb, ha, hb, hle⟩ := List.rel_of_pairwise_cons hpw (List.mem_singleton_self _)
  have ha' : pa = mkPost "p2" "X" "" 200 5 := (Option.some.inj ha).symm
  have hb' : pb = mkPost "p1" "Y" "" 300 1 := (Option.some.inj hb).symm
  subst ha' hb'
  exact absurd hle (by decide)

/-- Claim C4, amended: when the batches of a run give each identifier one
creation time (`cr`), the run from the empty store reaches a state in which
every channel sequence is in descending order of the stored `create_at`. -/
theorem sorted_after_stamped_batches (cr : String → Nat) (as : List Action)
    (h : ∀ a ∈ as, StampedBatch cr a) :
    ∃ s, run State.empty as = .ok s ∧ SortedDesc s := by
  obtain ⟨s, hrun, hs⟩ := run_stamped cr as State.empty (stamped_empty cr) h
  exact ⟨s, hrun, stamped_sortedDesc cr s hs⟩

theorem sorted_after_stamped_batches_witness :
    (∀ a ∈ stampedBatches, StampedBatch (fun k => if k = "p1" then 100 else 200) a) ∧
      ∃ s, run State.empty stampedBatches = .ok s ∧ SortedDesc s :=
  ⟨by simp [stampedBatches, StampedBatch, mkPost],
   sorted_after_stamped_batches (fun k => if k = "p1" then 100 else 200) stampedBatches
     (by simp [stampedBatches, StampedBatch, mkPost])⟩

/-- Claim C5 (idempotence of a batch): on a store with no dangling reference a
posts-received record returns a state, and applied to that state it returns
the same state again. -/
theorem batch_idempotent (s : State) (h : NoDangling s) (data : PostList)
    (channelId : String) :
    ∃ s1, reducer s (.receivedPosts data channelId) = .ok s1 ∧
      reducer s1 (.receivedPosts data channelId) = .ok s1 := by
  obtain ⟨s1, h1, h2, _⟩ := reducer_receivedPosts_twice s data channelId
    (fun seq hseq => h channelId seq hseq)
  exact ⟨s1, h1, h2⟩

theorem batch_idempotent_witness :
    NoDangling threadStore ∧
      ∃ s1, reducer threadStore
          (.receivedPosts ⟨[mkPost "B" "X" "A" 40 1, mkPost "E" "X" "" 25 3], []⟩ "X") = .ok s1 ∧
        reducer s1
          (.receivedPosts ⟨[mkPost "B" "X" "A" 40 1, mkPost "E" "X" "" 25 3], []⟩ "X") = .ok s1 :=
  ⟨noDangling_threadStore, batch_idempotent threadStore noDangling_threadStore _ _⟩

/-- Claim C6 (no-op stability): for an unrecognized record, and for a
post-removed record whose identifier is no key of `posts`, the handlers hand
back the two maps they were given, the two identifiers are equal, and the
reducer returns the very state object it was given (`isInput` is true), not a
copy. More generally, whenever a record passes the reference test (both maps
are the objects passed in, both identifiers are equal) the reducer returns the
object it was given; and it returns that object only then. -/
theorem noop_returns_state (s : State) :
    (reducerReturn s .other = .ok { state := s, isInput := true } ∧
      ∃ slice, handlePosts s.posts s.postsByChannel .other = .ok slice ∧
        slice.samePosts = true ∧ slice.samePostsByChannel = true ∧
        slice.posts = s.posts ∧ slice.postsByChannel = s.postsByChannel ∧
        selectedPostId s.selectedPostId .other = s.selectedPostId ∧
        currentFocusedPostId s.currentFocusedPostId .other = s.currentFocusedPostId ∧
        reducer s .other = .ok s) ∧
    (∀ post : Post, s.posts post.id = none →
      reducerReturn s (.removePost post) = .ok { state := s, isInput := true } ∧
      ∃ slice, handlePosts s.posts s.postsByChannel (.removePost post) = .ok slice ∧
        slice.samePosts = true ∧ slice.samePostsByChannel = true ∧
        slice.posts = s.posts ∧ slice.postsByChannel = s.postsByChannel ∧
        selectedPostId s.selectedPostId (.removePost post) = s.selectedPostId ∧
        currentFocusedPostId s.currentFocusedPostId (.removePost post) =
          s.currentFocusedPostId ∧
        reducer s (.removePost post) = .ok s) ∧
    (∀ (a : Action) (slice : PostsSlice),
      handlePosts s.posts s.postsByChannel a = .ok slice →
      slice.samePosts = true → slice.samePostsByChannel = true →
      selectedPostId s.selectedPostId a = s.selectedPostId →
      currentFocusedPostId s.currentFocusedPostId a = s.currentFocusedPostId →
      reducerReturn s a = .ok { state := s, isInput := true } ∧
        slice.posts = s.posts ∧ slice.postsByChannel = s.postsByChannel ∧
        reducer s a = .ok s) ∧
    (∀ (a : Action) (returned : Returned),
      reducerReturn s a = .ok returned → returned.isInput = true →
      returned.state = s ∧
      ∃ slice, handlePosts s.posts s.postsByChannel a = .ok slice ∧
        slice.samePosts = true ∧ slice.samePostsByChannel = true ∧
        selectedPostId s.selectedPostId a = s.selectedPostId ∧
        currentFocusedPostId s.currentFocusedPostId a = s.currentFocusedPostId) := by
  refine ⟨⟨?_, _, rfl, rfl, rfl, rfl, rfl, rfl, rfl, reducer_other s⟩, ?_, ?_, ?_⟩
  · simp [reducerReturn, handlePosts, unchanged, selectedPostId, currentFocusedPostId]
  · intro post h
    refine ⟨?_, ⟨s.posts, s.postsByChannel, true, true⟩, ?_, rfl, rfl, rfl, rfl, rfl, rfl,
      reducer_removePost_none s post h⟩
    · simp [reducerReturn, handlePosts, handleRemovePost, h, unchanged, selectedPostId,
        currentFocusedPostId]
    · simp [handlePosts, handleRemovePost, h]
  · intro a slice h hp hc hs hf
    obtain ⟨h1, h2⟩ := handlePosts_same_sound s.posts s.postsByChannel a slice h
    refine ⟨?_, h1 hp, h2 hc, ?_⟩
    · simp [reducerReturn, h, unchanged, hp, hc, hs, hf]
    · simp [reducer_unfold, h, unchanged, hp, hc, hs, hf]
  · intro a returned h hin
    exact reducerReturn_isInput s a returned h hin

theorem noop_returns_state_witness :
    threadStore.posts (mkPost "Z" "X" "" 1 1).id = none ∧
      reducerReturn threadStore (.removePost (mkPost "Z" "X" "" 1 1)) =
        .ok { state := threadStore, isInput := true } ∧
      reducerReturn threadStore .other = .ok { state := threadStore, isInput := true } ∧
      reducerReturn threadStore (.receivedPostSelected "") =
        .ok { state := threadStore, isInput := true } := by
  obtain ⟨⟨hother, _⟩, hremove, hgeneral, _⟩ := noop_returns_state threadStore
  refine ⟨rfl, (hremove (mkPost "Z" "X" "" 1 1) rfl).1, hother, ?_⟩
  exact (hgeneral (.receivedPostSelected "")
    ⟨threadStore.posts, threadStore.postsByChannel, true, true⟩ rfl rfl rfl rfl rfl).1

/-- Claim C7 (session reset): the session-terminated record yields the
canonical empty store, whatever the store was. -/
theorem session_reset (s : State) : reducer s .logoutSuccess = .ok State.empty := by
  rfl

/-- Claim C8 (soft-delete preserves order): a post-soft-deleted record returns
a state with the same `postsByChannel`, the same `posts` entry under every
other identifier and the same two identifiers; when its identifier is no key
of `posts` the state is the one given. -/
theorem soft_delete_frame (s : State) (post : Post) :
    ∃ s', reducer s (.postDeleted post) = .ok s' ∧
      s'.postsByChannel = s.postsByChannel ∧
      (∀ k, k ≠ post.id → s'.posts k = s.posts k) ∧
      s'.selectedPostId = s.selectedPostId ∧
      s'.currentFocusedPostId = s.currentFocusedPostId ∧
      (s.posts post.id = none → s' = s) := by
  cases h : s.posts post.id with
  | none =>
    exact ⟨s, reducer_postDeleted_none s post h, rfl, fun _ _ => rfl, rfl, rfl, fun _ => rfl⟩
  | some stored =>
    refine ⟨_, reducer_postDeleted_some s post stored h, ?_, ?_, ?_, ?_, ?_⟩
    · rfl
    · intro k hk
      simp [Function.update_noteq hk]
    · rfl
    · rfl
    · intro h'; cases h'

theorem soft_delete_frame_witness :
    threadStore.posts "Z" = none ∧ "B" ≠ "A" ∧
    ∃ s', reducer threadStore (.postDeleted (mkPost "A" "X" "" 30 30)) = .ok s' ∧
      s'.postsByChannel = threadStore.postsByChannel ∧
      s'.posts "B" = threadStore.posts "B" ∧
      reducer threadStore (.postDeleted (mkPost "Z" "X" "" 1 1)) = .ok threadStore := by
  obtain ⟨s', h1, h2, h3, _, _, _⟩ := soft_delete_frame threadStore (mkPost "A" "X" "" 30 30)
  obtain ⟨s2, h4, _, _, _, _, h5⟩ := soft_delete_frame threadStore (mkPost "Z" "X" "" 1 1)
  refine ⟨rfl, by decide, s', h1, h2, h3 "B" (by decide), ?_⟩
  rw [h4, h5 rfl]

/-- Claim C9 as stated fails: the record stored under a soft-deleted
identifier still carries the message ("Unit Test") it had. -/
theorem soft_delete_keeps_message :
    ∃ s' q, reducer threadStore (.postDeleted (mkPost "A" "X" "" 30 30)) = .ok s' ∧
      s'.posts "A" = some q ∧ q.message = "Unit Test" ∧ q.message ≠ "" :=
  ⟨_, _, rfl, rfl, rfl, by decide⟩

/-- Claim C9, amended: when the identifier of a post-soft-deleted record is a
key of `posts`, the record stored under it afterwards is the stored one with
`state` set to deleted, `file_ids` empty and `has_reactions` false; identifier,
channel, parent, author, the three timestamps and the message are kept. -/
theorem soft_delete_record (s : State) (post stored : Post)
    (h : s.posts post.id = some stored) :
    ∃ s' q, reducer s (.postDeleted post) = .ok s' ∧ s'.posts post.id = some q ∧
      q = { stored with state := some POST_DELETED, file_ids := [], has_reactions := false } ∧
      q.id = stored.id ∧ q.channel_id = stored.channel_id ∧ q.root_id = stored.root_id ∧
      q.user_id = stored.user_id ∧ q.create_at = stored.create_at ∧
      q.update_at = stored.update_at ∧ q.delete_at = stored.delete_at ∧
      q.message = stored.message ∧
      q.file_ids = [] ∧ q.has_reactions = false ∧ q.state = some POST_DELETED := by
  refine ⟨_, _, reducer_postDeleted_some s post stored h, ?_, rfl, rfl, rfl, rfl, rfl, rfl,
    rfl, rfl, rfl, rfl, rfl, rfl⟩
  simp

theorem soft_delete_record_witness :
    threadStore.posts (mkPost "B" "X" "A" 20 20).id = some (mkPost "B" "X" "A" 20 20) ∧
    ∃ s' q, reducer threadStore (.postDeleted (mkPost "B" "X" "A" 20 20)) = .ok s' ∧
      s'.posts "B" = some q ∧ q.create_at = 20 ∧ q.message = "Unit Test" ∧
      q.file_ids = [] ∧ q.has_reactions = false ∧ q.state = some "DELETED" := by
  obtain ⟨s', q, h1, h2, h3, _⟩ :=
    soft_delete_record threadStore (mkPost "B" "X" "A" 20 20) (mkPost "B" "X" "A" 20 20) rfl
  refine ⟨rfl, s', q, h1, h2, ?_⟩
  subst h3
  exact ⟨rfl, rfl, rfl, rfl, rfl⟩

/-- Claim C10 (scenario of the spec): from the empty store a batch keyed to
`C1` with `p1` (created at 100) and `p2` (created at 200) gives the sequence
`p2, p1`; a single post-received for `p3` (created at 50) then gives
`p3, p2, p1`. -/
theorem scenario_batch_then_single :
    ∃ s1 s2,
      reducer State.empty
        (.receivedPosts
          ⟨[mkPost "p1" "C1" "" 100 100, mkPost "p2" "C1" "" 200 200], ["p2", "p1"]⟩ "C1")
        = .ok s1 ∧
      s1.postsByChannel "C1" = some ["p2", "p1"] ∧
      reducer s1 (.receivedPost (mkPost "p3" "C1" "" 50 50)) = .ok s2 ∧
      s2.postsByChannel "C1" = some ["p3", "p2", "p1"] :=
  ⟨_, _, rfl, by decide, rfl, by decide⟩

/-- Claim C11 (singular post received, sequence): after post-received for `p`,
when the sequence of `p.channel_id` did not contain `p.id` (or there was no
sequence) the new sequence is `p.id` followed by the old one and the other
channels are as before; when it contained `p.id`, `postsByChannel` is
unchanged. -/
theorem received_post_sequence (s : State) (p : Post) :
    ∃ s', reducer s (.receivedPost p) = .ok s' ∧
      (p.id ∉ (s.postsByChannel p.channel_id).getD [] →
        s'.postsByChannel p.channel_id =
            some (p.id :: (s.postsByChannel p.channel_id).getD []) ∧
          ∀ c, c ≠ p.channel_id → s'.postsByChannel c = s.postsByChannel c) ∧
      (p.id ∈ (s.postsByChannel p.channel_id).getD [] →
        s'.postsByChannel = s.postsByChannel) := by
  refine ⟨_, reducer_receivedPost s p, ?_, ?_⟩
  · intro hnot
    show (handleReceivedPost s.posts s.postsByChannel p).postsByChannel p.channel_id = _ ∧
      ∀ c, c ≠ p.channel_id →
        (handleReceivedPost s.posts s.postsByChannel p).postsByChannel c = s.postsByChannel c
    cases hch : s.postsByChannel p.channel_id with
    | none =>
      rw [handleReceivedPost_absent _ _ _ hch]
      exact ⟨by simp, fun c hc => Function.update_noteq hc _ _⟩
    | some seq =>
      rw [hch] at hnot
      rw [handleReceivedPost_unlisted _ _ _ seq hch (by simpa using hnot)]
      exact ⟨by simp, fun c hc => Function.update_noteq hc _ _⟩
  · intro hin
    show (handleReceivedPost s.posts s.postsByChannel p).postsByChannel = s.postsByChannel
    cases hch : s.postsByChannel p.channel_id with
    | none => rw [hch] at hin; simp at hin
    | some seq =>
      rw [hch] at hin
      rw [handleReceivedPost_listed _ _ _ seq hch (by simpa using hin)]

theorem received_post_sequence_witness :
    "N" ∉ (threadStore.postsByChannel "X").getD [] ∧
    "B" ∈ (threadStore.postsByChannel "X").getD [] ∧
    (∃ s', reducer threadStore (.receivedPost (mkPost "N" "X" "" 5 5)) = .ok s' ∧
      s'.postsByChannel "X" = some ["N", "A", "B", "C"]) ∧
    (∃ s', reducer threadStore (.receivedPost (mkPost "B" "X" "A" 99 99)) = .ok s' ∧
      s'.postsByChannel = threadStore.postsByChannel) := by
  obtain ⟨s1, h1, h2, _⟩ := received_post_sequence threadStore (mkPost "N" "X" "" 5 5)
  obtain ⟨s2, h3, _, h4⟩ := received_post_sequence threadStore (mkPost "B" "X" "A" 99 99)
  exact ⟨by decide, by decide, ⟨s1, h1, (h2 (by decide)).1⟩, ⟨s2, h3, h4 (by decide)⟩⟩

/-- Claim C12 (singular post received, record): after post-received for `p`,
`posts` maps `p.id` to `p`, whatever was stored, and every other entry is
unchanged. -/
theorem received_post_record (s : State) (p : Post) :
    ∃ s', reducer s (.receivedPost p) = .ok s' ∧ s'.posts p.id = some p ∧
      ∀ k, k ≠ p.id → s'.posts k = s.posts k :=
  ⟨_, reducer_receivedPost s p, Function.update_same _ _ _,
    fun _ hk => Function.update_noteq hk _ _⟩

theorem received_post_record_witness :
    "A" ≠ (mkPost "B" "X" "A" 99 1).id ∧
    ∃ s', reducer threadStore (.receivedPost (mkPost "B" "X" "A" 99 1)) = .ok s' ∧
      s'.posts "B" = some (mkPost "B" "X" "A" 99 1) ∧ s'.posts "A" = threadStore.posts "A" := by
  obtain ⟨s', h1, h2, h3⟩ := received_post_record threadStore (mkPost "B" "X" "A" 99 1)
  exact ⟨by decide, s', h1, h2, h3 "A" (by decide)⟩

/-- Claim C13 (batch merge rule): in a batch with pairwise distinct identifiers,
for an incoming post `n` that is not deleted, a batch that returns leaves `n`
under `n.id` exactly when nothing was stored there, or the stored record had a
greater `update_at`, or the stored record was `n`; otherwise it leaves the
stored record. The batch returns when the sequence of its channel lists stored
posts only. -/
theorem batch_merge_rule (s : State) (data : PostList) (ch : String) (n : Post)
    (hd : (data.posts.map Post.id).Nodup) (hn : n ∈ data.posts) (hlive : n.delete_at = 0) :
    (∀ s', reducer s (.receivedPosts data ch) = .ok s' →
      (s'.posts n.id = some n ↔
        s.posts n.id = none ∨
          ∃ old, s.posts n.id = some old ∧ (old.update_at > n.update_at ∨ old = n)) ∧
      (s'.posts n.id ≠ some n → s'.posts n.id = s.posts n.id)) ∧
    ((∀ seq, s.postsByChannel ch = some seq → ∀ k ∈ seq, s.posts k ≠ none) →
      ∃ s', reducer s (.receivedPosts data ch) = .ok s') := by
  refine ⟨?_, fun h => ⟨_, reducer_receivedPosts s data ch (received_present s data ch h)⟩⟩
  intro s' hr
  obtain ⟨sorted, _, _, rfl⟩ := reducer_receivedPosts_inv s s' data ch hr
  have hat : (received s data ch).1 n.id = mergePost s.posts n n.id :=
    foldl_merge_at data.posts n _ hd hn hlive
  show ((received s data ch).1 n.id = some n ↔ _) ∧
    ((received s data ch).1 n.id ≠ some n → (received s data ch).1 n.id = s.posts n.id)
  rw [hat]
  exact mergePost_self_iff s.posts n

theorem batch_merge_rule_witness :
    (threadBatch.posts.map Post.id).Nodup ∧ mkPost "B" "X" "A" 40 1 ∈ threadBatch.posts ∧
    (mkPost "B" "X" "A" 40 1).delete_at = 0 ∧
    ∃ s', reducer threadStore (.receivedPosts threadBatch "X") = .ok s' ∧
      s'.posts "B" = some (mkPost "B" "X" "A" 40 1) := by
  have hthm := batch_merge_rule threadStore threadBatch "X" (mkPost "B" "X" "A" 40 1)
    (by decide) (by decide) rfl
  obtain ⟨s', hs'⟩ := hthm.2 (noDangling_in_threadStore "X")
  refine ⟨by decide, by decide, rfl, s', hs', ?_⟩
  exact ((hthm.1 s' hs').1).mpr (Or.inr ⟨mkPost "B" "X" "A" 20 20, rfl, Or.inl (by decide)⟩)

/-- Claim C14 (a batch skips deleted posts): for an incoming post `d` with
`delete_at > 0` whose identifier no other post of the batch carries, a batch
that returns leaves the `posts` entry under `d.id` as it was and lists `d.id`
in the sequence of its channel only if it was listed before. The batch returns
when the sequence of its channel lists stored posts only. -/
theorem batch_skips_deleted (s : State) (data : PostList) (ch : String) (d : Post)
    (_hd : d ∈ data.posts) (hdel : d.delete_at > 0)
    (hother : ∀ p ∈ data.posts, p.id = d.id → p = d) :
    (∀ s', reducer s (.receivedPosts data ch) = .ok s' →
      s'.posts d.id = s.posts d.id ∧
      ∀ seq', s'.postsByChannel ch = some seq' →
        (d.id ∈ seq' ↔ d.id ∈ (s.postsByChannel ch).getD [])) ∧
    ((∀ seq, s.postsByChannel ch = some seq → ∀ k ∈ seq, s.posts k ≠ none) →
      ∃ s', reducer s (.receivedPosts data ch) = .ok s') := by
  refine ⟨?_, fun h => ⟨_, reducer_receivedPosts s data ch (received_present s data ch h)⟩⟩
  intro s' hr
  obtain ⟨sorted, _, hperm, rfl⟩ := reducer_receivedPosts_inv s s' data ch hr
  have hnone : ∀ p ∈ data.posts, p.delete_at = 0 → p.id ≠ d.id := by
    intro p hp hlive he
    rw [hother p hp he] at hlive
    omega
  refine ⟨foldl_untouched data.posts d.id _ hnone, ?_⟩
  intro seq' hseq'
  have hseq : seq' = sorted := by
    have : Function.update s.postsByChannel ch (some sorted) ch = some seq' := hseq'
    rw [Function.update_same] at this
    exact (Option.some.inj this).symm
  subst hseq
  rw [hperm.mem_iff]
  have hlist : (received s data ch).2 = (s.postsByChannel ch).getD [] ++
      keepFirst (incomingIds ((s.postsByChannel ch).getD []) data.posts) :=
    foldl_list_eq data.posts _
  rw [hlist, List.mem_append, mem_keepFirst, mem_incomingIds]
  constructor
  · rintro (h | ⟨⟨p, hp, hlive, he⟩, _⟩)
    · exact h
    · exact absurd he (hnone p hp hlive)
  · exact Or.inl

theorem batch_skips_deleted_witness :
    ({ mkPost "G" "X" "" 60 60 with delete_at := 70 } : Post) ∈ threadBatch.posts ∧
    ∃ s', reducer threadStore (.receivedPosts threadBatch "X") = .ok s' ∧
      s'.posts "G" = none ∧
      ∀ seq', s'.postsByChannel "X" = some seq' → ¬ "G" ∈ seq' := by
  have hthm := batch_skips_deleted threadStore threadBatch "X"
    { mkPost "G" "X" "" 60 60 with delete_at := 70 } (by decide) (by decide) (by decide)
  obtain ⟨s', hs'⟩ := hthm.2 (noDangling_in_threadStore "X")
  obtain ⟨h1, h2⟩ := hthm.1 s' hs'
  refine ⟨by decide, s', hs', h1, fun seq' hseq' hin => ?_⟩
  exact absurd ((h2 seq' hseq').mp hin) (by decide)

/-- Claim C15 (batch ordering): when the sequence of `X` lists stored posts
only, a batch keyed to `X` returns, and the new sequence of `X` is the stable
sort (by insertion), in descending order of the `create_at` stored afterwards,
of the old sequence followed by the identifiers of the non-deleted incoming
posts that were not in it, each once in batch order (for pairwise distinct
identifiers that is the plain list of them). Hence it is in descending order,
is a permutation of that list, and two identifiers whose posts have the same
`create_at` keep their relative order. -/
theorem batch_ordering (s : State) (data : PostList) (ch : String)
    (h : ∀ seq, s.postsByChannel ch = some seq → ∀ k ∈ seq, s.posts k ≠ none) :
    ∃ s' seq', reducer s (.receivedPosts data ch) = .ok s' ∧
      s'.postsByChannel ch = some seq' ∧
      seq' = ((s.postsByChannel ch).getD [] ++
          keepFirst (incomingIds ((s.postsByChannel ch).getD []) data.posts)).insertionSort
        (newerFirst s'.posts) ∧
      ((data.posts.map Post.id).Nodup →
        keepFirst (incomingIds ((s.postsByChannel ch).getD []) data.posts) =
          incomingIds ((s.postsByChannel ch).getD []) data.posts) ∧
      seq'.Pairwise (fun a b =>
        ∃ pa pb, s'.posts a = some pa ∧ s'.posts b = some pb ∧ pb.create_at ≤ pa.create_at) ∧
      seq'.Perm ((s.postsByChannel ch).getD [] ++
          keepFirst (incomingIds ((s.postsByChannel ch).getD []) data.posts)) ∧
      ∀ a b pa pb, s'.posts a = some pa → s'.posts b = some pb →
        pa.create_at = pb.create_at →
        [a, b].Sublist ((s.postsByChannel ch).getD [] ++
          keepFirst (incomingIds ((s.postsByChannel ch).getD []) data.posts)) →
        [a, b].Sublist seq' := by
  have hpres := received_present s data ch h
  have hlist : (received s data ch).2 = (s.postsByChannel ch).getD [] ++
      keepFirst (incomingIds ((s.postsByChannel ch).getD []) data.posts) :=
    foldl_list_eq data.posts _
  have hperm := List.perm_insertionSort (newerFirst (received s data ch).1) (received s data ch).2
  have hsorted := List.sorted_insertionSort (newerFirst (received s data ch).1)
    (received s data ch).2
  refine ⟨_, _, reducer_receivedPosts s data ch hpres, Function.update_same _ _ _, ?_, ?_, ?_,
    ?_, ?_⟩
  · show _ = List.insertionSort (newerFirst (received s data ch).1) _
    rw [hlist]
  · exact fun hd => keepFirst_of_nodup _ (incomingIds_nodup _ _ hd)
  · refine List.Pairwise.imp_of_mem ?_ hsorted
    intro a b ha hb hab
    obtain ⟨pa, hpa⟩ := Option.ne_none_iff_exists'.mp (hpres a (hperm.mem_iff.mp ha))
    obtain ⟨pb, hpb⟩ := Option.ne_none_iff_exists'.mp (hpres b (hperm.mem_iff.mp hb))
    refine ⟨pa, pb, hpa, hpb, ?_⟩
    have hab' : createAtOf (received s data ch).1 b ≤ createAtOf (received s data ch).1 a := hab
    simpa only [createAtOf, hpa, hpb] using hab'
  · rw [← hlist]; exact hperm
  · intro a b pa pb hpa hpb heq hsub
    rw [← hlist] at hsub
    refine List.pair_sublist_insertionSort ?_ hsub
    show createAtOf (received s data ch).1 b ≤ createAtOf (received s data ch).1 a
    have hpa' : (received s data ch).1 a = some pa := hpa
    have hpb' : (received s data ch).1 b = some pb := hpb
    simp only [createAtOf, hpa', hpb']
    omega

theorem batch_ordering_witness :
    ∃ s' seq', reducer threadStore (.receivedPosts threadBatch "X") = .ok s' ∧
      s'.postsByChannel "X" = some seq' ∧ seq' = ["B", "A", "E", "F", "C"] ∧
      seq'.Perm (["A", "B", "C"] ++ ["E", "F"]) ∧ [("E" : String), "F"].Sublist seq' := by
  obtain ⟨s', seq', h1, h2, h3, _, _, h4, _⟩ :=
    batch_ordering threadStore threadBatch "X" (noDangling_in_threadStore "X")
  have hs' : s' = _ := Except.ok.inj (h1.symm.trans
    (reducer_receivedPosts threadStore threadBatch "X"
      (received_present threadStore threadBatch "X" (noDangling_in_threadStore "X"))))
  have hval : seq' = ["B", "A", "E", "F", "C"] := by
    rw [h3, hs']
    decide
  refine ⟨s', seq', h1, h2, hval, ?_, ?_⟩
  · rw [hval]; decide
  · rw [hval]; decide

/-- Claim C16 (no duplicates): when no channel sequence of a store lists an
identifier twice, none does in the state the reducer returns for a record;
hence none does in a state reached from the empty store. -/
theorem no_duplicates_kept :
    (∀ (s s' : State) (a : Action), NoDuplicates s → reducer s a = .ok s' → NoDuplicates s') ∧
    (∀ (as : List Action) (s : State), run State.empty as = .ok s → NoDuplicates s) :=
  ⟨fun s s' a hs h => step_noDuplicates s s' a hs h,
   fun as s h => run_noDuplicates as State.empty s (fun _ _ hc => by cases hc) h⟩

theorem no_duplicates_kept_witness :
    NoDuplicates threadStore ∧
    (∃ s', reducer threadStore (.receivedPosts threadBatch "X") = .ok s' ∧ NoDuplicates s') ∧
    (∃ s, run State.empty tidyRun = .ok s ∧ NoDuplicates s) :=
  ⟨nodup_threadStore,
   ⟨_, reducer_receivedPosts threadStore threadBatch "X"
        (received_present threadStore threadBatch "X" (noDangling_in_threadStore "X")),
      no_duplicates_kept.1 threadStore _ _ nodup_threadStore
        (reducer_receivedPosts threadStore threadBatch "X"
          (received_present threadStore threadBatch "X" (noDangling_in_threadStore "X")))⟩,
   ⟨_, rfl, no_duplicates_kept.2 tidyRun _ rfl⟩⟩

/-- Claim C17 (posts are physically removed only by removal or logout): for a
record that is neither post-removed nor session-terminated, every key of
`posts` is still a key in the state the reducer returns; and it returns,
provided that for a batch the sequence of its channel lists stored posts
only. -/
theorem posts_kept_unless_removed (s : State) (a : Action)
    (hrem : ∀ p, a ≠ .removePost p) (hlog : a ≠ .logoutSuccess) :
    (∀ s', reducer s a = .ok s' → ∀ k, s.posts k ≠ none → s'.posts k ≠ none) ∧
    ((∀ data ch, a = .receivedPosts data ch →
        ∀ seq, s.postsByChannel ch = some seq → ∀ k ∈ seq, s.posts k ≠ none) →
      ∃ s', reducer s a = .ok s') := by
  cases a with
  | receivedPost p =>
    refine ⟨?_, fun _ => ⟨_, reducer_receivedPost s p⟩⟩
    intro s' h k hk
    rw [reducer_receivedPost] at h
    simp only [Except.ok.injEq] at h
    subst h
    exact update_some_present _ _ _ _ hk
  | receivedPosts data ch =>
    refine ⟨?_, fun h => ⟨_, reducer_receivedPosts s data ch
      (received_present s data ch (h data ch rfl))⟩⟩
    intro s' h k hk
    obtain ⟨sorted, _, _, rfl⟩ := reducer_receivedPosts_inv s s' data ch h
    exact (foldl_keeps data.posts _).1 k hk
  | postDeleted p =>
    cases hp : s.posts p.id with
    | none =>
      refine ⟨?_, fun _ => ⟨_, reducer_postDeleted_none s p hp⟩⟩
      intro s' h k hk
      rw [reducer_postDeleted_none s p hp] at h
      simp only [Except.ok.injEq] at h
      subst h; exact hk
    | some stored =>
      refine ⟨?_, fun _ => ⟨_, reducer_postDeleted_some s p stored hp⟩⟩
      intro s' h k hk
      rw [reducer_postDeleted_some s p stored hp] at h
      simp only [Except.ok.injEq] at h
      subst h
      exact update_some_present _ _ _ _ hk
  | removePost p => exact absurd rfl (hrem p)
  | receivedPostSelected i =>
    refine ⟨?_, fun _ => ⟨_, reducer_receivedPostSelected s i⟩⟩
    intro s' h k hk
    rw [reducer_receivedPostSelected] at h
    simp only [Except.ok.injEq] at h
    subst h; exact hk
  | logoutSuccess => exact absurd rfl hlog
  | other =>
    refine ⟨?_, fun _ => ⟨_, reducer_other s⟩⟩
    intro s' h k hk
    rw [reducer_other] at h
    simp only [Except.ok.injEq] at h
    subst h; exact hk

theorem posts_kept_unless_removed_witness :
    threadStore.posts "A" ≠ none ∧
    ∃ s', reducer threadStore (.postDeleted (mkPost "A" "X" "" 30 30)) = .ok s' ∧
      s'.posts "A" ≠ none := by
  have hthm := posts_kept_unless_removed threadStore (.postDeleted (mkPost "A" "X" "" 30 30))
    (fun p h => by cases h) (fun h => by cases h)
  obtain ⟨s', hs'⟩ := hthm.2 (fun data ch h => by cases h)
  exact ⟨by decide, s', hs', hthm.1 s' hs' "A" (by decide)⟩

/-- Claim C18 (post selected): the record dispatched by `selectPost i` makes
the reducer return the store with `selectedPostId` set to `i` and the other
three fields as they were; a session-terminated record after it resets
`selectedPostId` to the empty identifier. -/
theorem post_selected (s : State) (i : String) :
    selectPost i = [.receivedPostSelected i] ∧
    ∃ s', reducer s (.receivedPostSelected i) = .ok s' ∧
      s'.selectedPostId = i ∧ s'.posts = s.posts ∧
      s'.postsByChannel = s.postsByChannel ∧
      s'.currentFocusedPostId = s.currentFocusedPostId ∧
      ∃ s'', reducer s' .logoutSuccess = .ok s'' ∧ s''.selectedPostId = "" :=
  ⟨rfl, _, reducer_receivedPostSelected s i, rfl, rfl, rfl, rfl, _, reducer_logoutSuccess _, rfl⟩

/-- Claim C19 as stated fails: for two posts of one author who is in neither
cache, the list passed to each fetch names that author twice. -/
theorem side_fetch_repeats_author :
    getProfilesAndStatusesForPosts noUsers
        ⟨[mkPost "p1" "X" "" 1 1, mkPost "p2" "X" "" 2 2], ["p2", "p1"]⟩ =
      [.getProfilesByIds ["u1", "u1"], .getStatusesByIds ["u1", "u1"]] ∧
    ¬ (["u1", "u1"] : List String).Nodup :=
  ⟨by decide, by decide⟩

/-- Claim C19, amended: the list passed to the profile fetch (the status fetch)
is the list of the authors of the received posts, in the order of the posts and
one entry per post, that have no entry in the profile (status) cache; so it
names exactly the authors missing from that cache, an author of several posts
once for each of them, and a fetch whose list is empty is not issued. -/
theorem side_fetch_lists (users : UsersState) (list : PostList) :
    getProfilesAndStatusesForPosts users list =
      (if (list.posts.map Post.user_id).filter (fun u => !users.profiles u) = [] then []
        else [.getProfilesByIds
          ((list.posts.map Post.user_id).filter (fun u => !users.profiles u))]) ++
      (if (list.posts.map Post.user_id).filter (fun u => !users.statuses u) = [] then []
        else [.getStatusesByIds
          ((list.posts.map Post.user_id).filter (fun u => !users.statuses u))]) ∧
    (∀ u, u ∈ (list.posts.map Post.user_id).filter (fun u => !users.profiles u) ↔
      (∃ p ∈ list.posts, p.user_id = u) ∧ users.profiles u = false) ∧
    (∀ u, u ∈ (list.posts.map Post.user_id).filter (fun u => !users.statuses u) ↔
      (∃ p ∈ list.posts, p.user_id = u) ∧ users.statuses u = false) := by
  refine ⟨?_, ?_, ?_⟩
  · simp only [getProfilesAndStatusesForPosts, collect_eq, List.nil_append, ne_eq,
      List.length_eq_zero, ite_not]
  · intro u; simp [List.mem_filter]
  · intro u; simp [List.mem_filter]

/-- Claim C20 (fetch failure): when the remote call of `getPosts`,
`getPostsSince`, `getPostsBefore` or `getPostsAfter` fails with an error that
does not force a logout, the function dispatches the request-started record
and then one batch of the request-failed record with the error and the log
record for the error, resolves with `null`, and these records leave every post
store as it is. -/
theorem fetch_failure (client : Client4) (users : UsersState)
    (sessionExpired : ClientError → Bool) (e : ClientError) (hlog : sessionExpired e = false)
    (channelId postId : String) (page perPage since : Nat) :
    (client.getPosts channelId page perPage = .error e →
      (getPosts client users sessionExpired channelId page perPage).dispatched =
          [.single (.request .getPosts),
           .batch [.failure .getPosts e, getLogErrorAction e]] ∧
        (getPosts client users sessionExpired channelId page perPage).returned = none ∧
        ∀ s, reduceDispatched s
          (getPosts client users sessionExpired channelId page perPage).dispatched = .ok s) ∧
    (client.getPostsSince channelId since = .error e →
      (getPostsSince client users sessionExpired channelId since).dispatched =
          [.single (.request .getPostsSince),
           .batch [.failure .getPostsSince e, getLogErrorAction e]] ∧
        (getPostsSince client users sessionExpired channelId since).returned = none ∧
        ∀ s, reduceDispatched s
          (getPostsSince client users sessionExpired channelId since).dispatched = .ok s) ∧
    (client.getPostsBefore channelId postId page perPage = .error e →
      (getPostsBefore client users sessionExpired channelId postId page perPage).dispatched =
          [.single (.request .getPostsBefore),
           .batch [.failure .getPostsBefore e, getLogErrorAction e]] ∧
        (getPostsBefore client users sessionExpired channelId postId page perPage).returned =
          none ∧
        ∀ s, reduceDispatched s
          (getPostsBefore client users sessionExpired channelId postId page perPage).dispatched =
            .ok s) ∧
    (client.getPostsAfter channelId postId page perPage = .error e →
      (getPostsAfter client users sessionExpired channelId postId page perPage).dispatched =
          [.single (.request .getPostsAfter),
           .batch [.failure .getPostsAfter e, getLogErrorAction e]] ∧
        (getPostsAfter client users sessionExpired channelId postId page perPage).returned =
          none ∧
        ∀ s, reduceDispatched s
          (getPostsAfter client users sessionExpired channelId postId page perPage).dispatched =
            .ok s) := by
  refine ⟨fun h => ?_, fun h => ?_, fun h => ?_, fun h => ?_⟩
  · have hd : (getPosts client users sessionExpired channelId page perPage).dispatched =
        [.single (.request .getPosts), .batch [.failure .getPosts e, getLogErrorAction e]] := by
      simp [getPosts, h, forceLogoutIfNecessary, hlog]
    refine ⟨hd, by simp [getPosts, h], fun s => ?_⟩
    rw [hd]; exact failure_records_ignored s _ e
  · have hd : (getPostsSince client users sessionExpired channelId since).dispatched =
        [.single (.request .getPostsSince),
         .batch [.failure .getPostsSince e, getLogErrorAction e]] := by
      simp [getPostsSince, h, forceLogoutIfNecessary, hlog]
    refine ⟨hd, by simp [getPostsSince, h], fun s => ?_⟩
    rw [hd]; exact failure_records_ignored s _ e
  · have hd : (getPostsBefore client users sessionExpired channelId postId page perPage).dispatched =
        [.single (.request .getPostsBefore),
         .batch [.failure .getPostsBefore e, getLogErrorAction e]] := by
      simp [getPostsBefore, h, forceLogoutIfNecessary, hlog]
    refine ⟨hd, by simp [getPostsBefore, h], fun s => ?_⟩
    rw [hd]; exact failure_records_ignored s _ e
  · have hd : (getPostsAfter client users sessionExpired channelId postId page perPage).dispatched =
        [.single (.request .getPostsAfter),
         .batch [.failure .getPostsAfter e, getLogErrorAction e]] := by
      simp [getPostsAfter, h, forceLogoutIfNecessary, hlog]
    refine ⟨hd, by simp [getPostsAfter, h], fun s => ?_⟩
    rw [hd]; exact failure_records_ignored s _ e

theorem fetch_failure_witness :
    (fun e : ClientError => decide (e.status_code = 401)) ⟨"down", 500⟩ = false ∧
    failingClient.getPosts "X" 0 60 = .error ⟨"down", 500⟩ ∧
    (getPosts failingClient noUsers (fun e => decide (e.status_code = 401)) "X" 0 60).dispatched =
      [.single (.request .getPosts),
       .batch [.failure .getPosts ⟨"down", 500⟩, .logError ⟨"down", 500⟩]] ∧
    (getPosts failingClient noUsers (fun e => decide (e.status_code = 401)) "X" 0 60).returned =
      none ∧
    reduceDispatched threadStore
      (getPosts failingClient noUsers (fun e => decide (e.status_code = 401)) "X" 0 60).dispatched =
        .ok threadStore := by
  obtain ⟨h1, h2, h3⟩ := (fetch_failure failingClient noUsers
    (fun e => decide (e.status_code = 401)) ⟨"down", 500⟩ (by decide) "X" "p" 0 60 0).1 rfl
  exact ⟨by decide, rfl, h1, h2, h3 threadStore⟩

/-- Claim C21 (fetch success): when the remote call of `getPosts`,
`getPostsSince`, `getPostsBefore` or `getPostsAfter` for channel `c` succeeds
with payload `r`, the function dispatches the request-started record and then
one batch of the posts-received record with data `r` and channel `c` followed
by the request-succeeded record, and resolves with `r`. -/
theorem fetch_success (client : Client4) (users : UsersState)
    (sessionExpired : ClientError → Bool) (r : PostList)
    (c postId : String) (page perPage since : Nat) :
    (client.getPosts c page perPage = .ok r →
      (getPosts client users sessionExpired c page perPage).dispatched =
          [.single (.request .getPosts),
           .batch [.entity (.receivedPosts r c), .success .getPosts]] ∧
        (getPosts client users sessionExpired c page perPage).returned = some r) ∧
    (client.getPostsSince c since = .ok r →
      (getPostsSince client users sessionExpired c since).dispatched =
          [.single (.request .getPostsSince),
           .batch [.entity (.receivedPosts r c), .success .getPostsSince]] ∧
        (getPostsSince client users sessionExpired c since).returned = some r) ∧
    (client.getPostsBefore c postId page perPage = .ok r →
      (getPostsBefore client users sessionExpired c postId page perPage).dispatched =
          [.single (.request .getPostsBefore),
           .batch [.entity (.receivedPosts r c), .success .getPostsBefore]] ∧
        (getPostsBefore client users sessionExpired c postId page perPage).returned = some r) ∧
    (client.getPostsAfter c postId page perPage = .ok r →
      (getPostsAfter client users sessionExpired c postId page perPage).dispatched =
          [.single (.request .getPostsAfter),
           .batch [.entity (.receivedPosts r c), .success .getPostsAfter]] ∧
        (getPostsAfter client users sessionExpired c postId page perPage).returned = some r) := by
  refine ⟨fun h => ?_, fun h => ?_, fun h => ?_, fun h => ?_⟩
  · simp [getPosts, h]
  · simp [getPostsSince, h]
  · simp [getPostsBefore, h]
  · simp [getPostsAfter, h]

theorem fetch_success_witness :
    servingClient.getPostsSince "X" 17 = .ok threadBatch ∧
    (getPostsSince servingClient noUsers (fun _ => false) "X" 17).dispatched =
      [.single (.request .getPostsSince),
       .batch [.entity (.receivedPosts threadBatch "X"), .success .getPostsSince]] ∧
    (getPostsSince servingClient noUsers (fun _ => false) "X" 17).returned = some threadBatch :=
  ⟨rfl, (fetch_success servingClient noUsers (fun _ => false) threadBatch "X" "B" 0 60 17).2.1 rfl⟩

/-- Claim C22 (pipeline functions never raise), evaluated where it fails: when
the remote call of `getPostThread` for `p1` succeeds with a payload that holds
only `p2`, the function has dispatched the request-started record and then
rejects with a `TypeError`; it dispatches neither a success nor a failure
batch. -/
theorem getPostThread_raises_without_post :
    getPostThread (fun _ => .ok ⟨[mkPost "p2" "X" "" 2 2], ["p2"]⟩) noUsers (fun _ => false)
        "p1" =
      { dispatched := [.single (.request .getPostThread)]
        sideFetches := [.getProfilesByIds ["u1"], .getStatusesByIds ["u1"]]
        raised := some .typeError } := by
  rfl

/-- Claim C23 (removal is confined): on a store with no dangling reference, in
every state a post-removed record for identifier `i` and channel `X` returns,
the sequence of `X` is a subsequence of the old one, every identifier dropped
from it and every key dropped from `posts` is `i` or a post whose `root_id` is
`i`, and the sequences of the other channels are unchanged. The reducer returns
when the sequence of `X` is free of duplicates. -/
theorem removal_confined (s : State) (post : Post) (hs : NoDangling s) :
    (∀ s', reducer s (.removePost post) = .ok s' →
      ((s'.postsByChannel post.channel_id).getD []).Sublist
        ((s.postsByChannel post.channel_id).getD []) ∧
      (∀ k, k ∈ (s.postsByChannel post.channel_id).getD [] →
        k ∉ (s'.postsByChannel post.channel_id).getD [] →
        k = post.id ∨ ∃ p, s.posts k = some p ∧ p.root_id = post.id) ∧
      (∀ k, s.posts k ≠ none → s'.posts k = none →
        k = post.id ∨ ∃ p, s.posts k = some p ∧ p.root_id = post.id) ∧
      (∀ c, c ≠ post.channel_id → s'.postsByChannel c = s.postsByChannel c)) ∧
    (((s.postsByChannel post.channel_id).getD []).Nodup →
      ∃ s', reducer s (.removePost post) = .ok s') := by
  cases hp : s.posts post.id with
  | none =>
    refine ⟨?_, fun _ => ⟨s, reducer_removePost_none s post hp⟩⟩
    intro s' h
    rw [reducer_removePost_none s post hp] at h
    simp only [Except.ok.injEq] at h
    subst h
    exact ⟨List.Sublist.refl _, fun k h1 h2 => absurd h1 h2, fun k h1 h2 => absurd h2 h1,
      fun _ _ => rfl⟩
  | some stored =>
    constructor
    · intro s' h
      obtain ⟨posts', seq', rfl, hsub, hseq, hposts⟩ :=
        reducer_removePost_effect s s' post stored hp h
      have hnew : (Function.update s.postsByChannel post.channel_id (some seq')
          post.channel_id).getD [] = seq' := by
        rw [Function.update_same]; rfl
      refine ⟨?_, ?_, hposts, fun c hc => Function.update_noteq hc _ _⟩
      · show ((Function.update s.postsByChannel post.channel_id (some seq')
          post.channel_id).getD []).Sublist _
        rw [hnew]; exact hsub
      · intro k hk hnot
        refine hseq k hk ?_
        have hnot' : k ∉ (Function.update s.postsByChannel post.channel_id (some seq')
            post.channel_id).getD [] := hnot
        rwa [hnew] at hnot'
    · intro hnd
      have hall : ∀ k ∈ (s.postsByChannel post.channel_id).getD [], s.posts k ≠ none := by
        intro k hk
        cases hc : s.postsByChannel post.channel_id with
        | none => rw [hc] at hk; simp at hk
        | some seq =>
          rw [hc] at hk
          exact hs _ seq hc k (by simpa using hk)
      obtain ⟨posts', seq', hrun, _⟩ := reducer_removePost_some s post stored hp hnd hall
      exact ⟨_, hrun⟩

theorem removal_confined_witness :
    NoDangling threadStore ∧
    ((threadStore.postsByChannel "X").getD []).Nodup ∧
    ∃ s', reducer threadStore (.removePost (mkPost "B" "X" "A" 20 20)) = .ok s' ∧
      ((s'.postsByChannel "X").getD []).Sublist ["A", "B", "C"] ∧
      (s'.posts "A" = none → "A" = "B" ∨
        ∃ p, threadStore.posts "A" = some p ∧ p.root_id = "B") ∧
      s'.postsByChannel "Y" = threadStore.postsByChannel "Y" := by
  have hthm := removal_confined threadStore (mkPost "B" "X" "A" 20 20) noDangling_threadStore
  obtain ⟨s', hs'⟩ := hthm.2 (by decide)
  obtain ⟨h1, _, h3, h4⟩ := hthm.1 s' hs'
  exact ⟨noDangling_threadStore, by decide, s', hs', h1, h3 "A" (by decide), h4 "Y" (by decide)⟩

/-- Claim C24 (batch frame): in every state a posts-received record keyed to
`X` returns, the sequence of every other channel, `selectedPostId` and
`currentFocusedPostId` are unchanged, and so is every `posts` entry whose
identifier no non-deleted incoming post carries. The reducer returns when the
sequence of `X` lists stored posts only. -/
theorem batch_frame (s : State) (data : PostList) (ch : String) :
    (∀ s', reducer s (.receivedPosts data ch) = .ok s' →
      (∀ c, c ≠ ch → s'.postsByChannel c = s.postsByChannel c) ∧
      s'.selectedPostId = s.selectedPostId ∧
      s'.currentFocusedPostId = s.currentFocusedPostId ∧
      ∀ k, (∀ p ∈ data.posts, p.delete_at = 0 → p.id ≠ k) → s'.posts k = s.posts k) ∧
    ((∀ seq, s.postsByChannel ch = some seq → ∀ k ∈ seq, s.posts k ≠ none) →
      ∃ s', reducer s (.receivedPosts data ch) = .ok s') := by
  refine ⟨?_, fun h => ⟨_, reducer_receivedPosts s data ch (received_present s data ch h)⟩⟩
  intro s' hr
  obtain ⟨sorted, _, _, rfl⟩ := reducer_receivedPosts_inv s s' data ch hr
  exact ⟨fun c hc => Function.update_noteq hc _ _, rfl, rfl,
    fun k hk => foldl_untouched data.posts k _ hk⟩

theorem batch_frame_witness :
    (∀ p ∈ threadBatch.posts, p.delete_at = 0 → p.id ≠ "C") ∧
    ∃ s', reducer threadStore (.receivedPosts threadBatch "X") = .ok s' ∧
      s'.postsByChannel "Y" = threadStore.postsByChannel "Y" ∧
      s'.selectedPostId = threadStore.selectedPostId ∧
      s'.currentFocusedPostId = threadStore.currentFocusedPostId ∧
      s'.posts "C" = threadStore.posts "C" := by
  have hthm := batch_frame threadStore threadBatch "X"
  obtain ⟨s', hs'⟩ := hthm.2 (noDangling_in_threadStore "X")
  obtain ⟨h1, h2, h3, h4⟩ := hthm.1 s' hs'
  exact ⟨by decide, s', hs', h1 "Y" (by decide), h2, h3, h4 "C" (by decide)⟩

/-- Claim C25 (`currentFocusedPostId` is never set): a record other than
session-terminated leaves `currentFocusedPostId` as it was in the state the
reducer returns, session-terminated makes it empty, and so it is empty in every
state reached from the empty store. -/
theorem focused_never_set :
    (∀ (s s' : State) (a : Action), a ≠ .logoutSuccess → reducer s a = .ok s' →
      s'.currentFocusedPostId = s.currentFocusedPostId) ∧
    (∀ s : State, ∃ s', reducer s .logoutSuccess = .ok s' ∧ s'.currentFocusedPostId = "") ∧
    (∀ (as : List Action) (s : State), run State.empty as = .ok s →
      s.currentFocusedPostId = "") := by
  refine ⟨?_, fun s => ⟨_, reducer_logoutSuccess s, rfl⟩,
    fun as s h => run_focused as State.empty s rfl h⟩
  intro s s' a ha h
  rw [(reducer_identifiers s s' a h).2]
  cases a with
  | logoutSuccess => exact absurd rfl ha
  | receivedPost _ => rfl
  | receivedPosts _ _ => rfl
  | postDeleted _ => rfl
  | removePost _ => rfl
  | receivedPostSelected _ => rfl
  | other => rfl

theorem focused_never_set_witness :
    (∃ s', reducer { threadStore with currentFocusedPostId := "B" }
        (.receivedPostSelected "A") = .ok s' ∧ s'.currentFocusedPostId = "B") ∧
    (∃ s, run State.empty tidyRun = .ok s ∧ s.currentFocusedPostId = "") :=
  ⟨⟨_, reducer_receivedPostSelected _ "A",
      focused_never_set.1 _ _ (.receivedPostSelected "A") (fun h => by cases h)
        (reducer_receivedPostSelected _ "A")⟩,
   ⟨_, rfl, focused_never_set.2.2 tidyRun _ rfl⟩⟩

end PostsReducer
